import Mathlib

/-!
# SingleLinkedList (src/single-linked-list.h)

A shallow embedding of the C++ class template `SingleLinkedList<Type>`.

* Nodes live in a heap that maps non-null 64-bit addresses to nodes.
* The sentinel `head_` is a member of the list object; only its `next_node`
  field is ever read by the class, so the list object is the pair
  `head_.next_node`, `size_`.
* A `Node*` held by an iterator is null, the address of the sentinel of the
  list the operation is called on, or the address of a heap node.
* `size_t` arithmetic is arithmetic modulo `2 ^ 64`.
* `assert` is modelled as in a debug build: a failing assertion stops the
  operation with `assert_fail`; reading through a null or dangling pointer is
  `undefined`; a failing `new` is `bad_alloc`.
-/

namespace SLL

/-- The value of `SIZE_MAX + 1` for a 64-bit `size_t`. -/
def SIZE_MOD : Nat := 18446744073709551616

/-- A non-null node address of a 64-bit address space. -/
abbrev Addr := Fin 18446744073709551615

/-- The struct `Node`: a value and the pointer to the next node
(`none` is `nullptr`). -/
structure Node (α : Type) where
  value : α
  next_node : Option Addr

/-- The free store: the nodes currently allocated with `new Node`. -/
abbrev Heap (α : Type) := Addr → Option (Node α)

/-- Store a node at an address. -/
def Heap.set {α : Type} (h : Heap α) (a : Addr) (n : Node α) : Heap α :=
  fun b => if b = a then some n else h b

/-- The effect of `delete` on the node at an address. -/
def Heap.free {α : Type} (h : Heap α) (a : Addr) : Heap α :=
  fun b => if b = a then none else h b

/-- The behaviour of `new Node`: either `std::bad_alloc` (`none`) or an address
that is not in use. -/
structure Allocator (α : Type) where
  pick : Heap α → Option Addr
  fresh : ∀ h a, pick h = some a → h a = none

/-- A value of type `Node*` as seen by the methods of one list: `nullptr`,
`&head_` of that list, or the address of a heap node. -/
inductive NodePtr where
  | null
  | head
  | cell (a : Addr)
  deriving DecidableEq

/-- A `Node*` read from a `next_node` field. -/
def NodePtr.ofLink : Option Addr → NodePtr
  | none => NodePtr.null
  | some a => NodePtr.cell a

/-- The class `BasicIterator<ValueType>`; both instantiations hold one
`Node* node_`. -/
structure BasicIterator where
  node_ : NodePtr
  deriving DecidableEq

/-- The data members of `SingleLinkedList`: `head_.next_node` and `size_`. -/
structure SingleLinkedList where
  head_next_node : Option Addr
  size_ : Nat
  deriving DecidableEq

/-- How a call ends: normal return, a propagated `std::bad_alloc` (with the
state left behind), a trapped `assert`, undefined behaviour, or a loop of the
model that ran out of fuel. -/
inductive Outcome (ε ρ : Type) where
  | ok (r : ρ)
  | bad_alloc (e : ε)
  | assert_fail
  | undefined
  | out_of_fuel
  deriving DecidableEq

/-- Whether the call ended with a propagated `std::bad_alloc`. -/
def Outcome.isBadAlloc {ε ρ : Type} : Outcome ε ρ → Bool
  | Outcome.bad_alloc _ => true
  | _ => false

/-- The expression `p->next_node` for a pointer `p` that passed `assert(p)`;
`none` when `p` is null or dangling. -/
def readNext {α : Type} (h : Heap α) (l : SingleLinkedList) : NodePtr → Option (Option Addr)
  | NodePtr.null => none
  | NodePtr.head => some l.head_next_node
  | NodePtr.cell a =>
    match h a with
    | none => none
    | some n => some n.next_node

/-- The assignment `p->next_node = nx`; `none` when `p` is null or dangling. -/
def writeNext {α : Type} (h : Heap α) (l : SingleLinkedList) (p : NodePtr) (nx : Option Addr) :
    Option (Heap α × SingleLinkedList) :=
  match p with
  | NodePtr.null => none
  | NodePtr.head => some (h, { l with head_next_node := nx })
  | NodePtr.cell a =>
    match h a with
    | none => none
    | some n => some (h.set a { n with next_node := nx }, l)

/-- The default constructor `SingleLinkedList()`. -/
def SingleLinkedList.empty : SingleLinkedList :=
  { head_next_node := none, size_ := 0 }

/-- The method `GetSize`. -/
def GetSize (l : SingleLinkedList) : Nat := l.size_

/-- The method `IsEmpty`: `!(size_)`. -/
def IsEmpty (l : SingleLinkedList) : Bool := l.size_ == 0

/-- The methods `begin` and `cbegin`: `Iterator{head_.next_node}`. -/
def SingleLinkedList.begin (l : SingleLinkedList) : BasicIterator :=
  ⟨NodePtr.ofLink l.head_next_node⟩

/-- The methods `end` and `cend`: the default-constructed iterator. -/
def SingleLinkedList.end_ : BasicIterator := ⟨NodePtr.null⟩

/-- The methods `before_begin` and `cbefore_begin`: `Iterator{&head_}`. -/
def SingleLinkedList.before_begin : BasicIterator := ⟨NodePtr.head⟩

/-- The pre-increment `operator++` of the iterator: `assert(node_)`, then
`node_ = node_->next_node`. -/
def BasicIterator.incr {α : Type} (h : Heap α) (l : SingleLinkedList) (it : BasicIterator) :
    Outcome Empty BasicIterator :=
  match it.node_ with
  | NodePtr.null => Outcome.assert_fail
  | p =>
    match readNext h l p with
    | none => Outcome.undefined
    | some nx => Outcome.ok ⟨NodePtr.ofLink nx⟩

/-- The dereference `operator*` of the iterator: `assert(node_)`, then
`node_->value`.  The sentinel is built by `head_(Node())`, so its value member is
a value-initialised `Type` that is no element of the list; the list object of
this model does not carry it, and dereferencing the sentinel, which the
iterator contract excludes, is reported as `undefined`. -/
def BasicIterator.deref {α : Type} (h : Heap α) (it : BasicIterator) : Outcome Empty α :=
  match it.node_ with
  | NodePtr.null => Outcome.assert_fail
  | NodePtr.head => Outcome.undefined
  | NodePtr.cell a =>
    match h a with
    | none => Outcome.undefined
    | some n => Outcome.ok n.value

/-- The method `InsertAfter`. -/
def InsertAfter {α : Type} (A : Allocator α) (h : Heap α) (l : SingleLinkedList)
    (pos : BasicIterator) (value : α) :
    Outcome (Heap α × SingleLinkedList) (Heap α × SingleLinkedList × BasicIterator) :=
  match pos.node_ with
  | NodePtr.null => Outcome.assert_fail
  | p =>
    match A.pick h with
    | none => Outcome.bad_alloc (h, l)
    | some buff =>
      match readNext h l p with
      | none => Outcome.undefined
      | some nx =>
        match writeNext (h.set buff ⟨value, nx⟩) l p (some buff) with
        | none => Outcome.undefined
        | some (h1, l1) =>
          Outcome.ok (h1, { l1 with size_ := (l1.size_ + 1) % SIZE_MOD }, ⟨NodePtr.cell buff⟩)

/-- The method `EraseAfter`. -/
def EraseAfter {α : Type} (h : Heap α) (l : SingleLinkedList) (pos : BasicIterator) :
    Outcome Empty (Heap α × SingleLinkedList × BasicIterator) :=
  match pos.node_ with
  | NodePtr.null => Outcome.assert_fail
  | p =>
    match readNext h l p with
    | none => Outcome.undefined
    | some none => Outcome.undefined
    | some (some d) =>
      match h d with
      | none => Outcome.undefined
      | some nd =>
        match writeNext h l p nd.next_node with
        | none => Outcome.undefined
        | some (h1, l1) =>
          let h2 := h1.free d
          let l2 : SingleLinkedList := { l1 with size_ := (l1.size_ + (SIZE_MOD - 1)) % SIZE_MOD }
          match readNext h2 l2 p with
          | none => Outcome.undefined
          | some nx => Outcome.ok (h2, l2, ⟨NodePtr.ofLink nx⟩)

/-- The method `PushFront`. -/
def PushFront {α : Type} (A : Allocator α) (h : Heap α) (l : SingleLinkedList) (value : α) :
    Outcome (Heap α × SingleLinkedList) (Heap α × SingleLinkedList) :=
  match InsertAfter A h l ⟨NodePtr.head⟩ value with
  | Outcome.ok (h1, l1, _) => Outcome.ok (h1, l1)
  | Outcome.bad_alloc e => Outcome.bad_alloc e
  | Outcome.assert_fail => Outcome.assert_fail
  | Outcome.undefined => Outcome.undefined
  | Outcome.out_of_fuel => Outcome.out_of_fuel

/-- The method `PopFront`. -/
def PopFront {α : Type} (h : Heap α) (l : SingleLinkedList) :
    Outcome Empty (Heap α × SingleLinkedList) :=
  match l.head_next_node with
  | none => Outcome.assert_fail
  | some _ =>
    match EraseAfter h l ⟨NodePtr.head⟩ with
    | Outcome.ok (h1, l1, _) => Outcome.ok (h1, l1)
    | Outcome.bad_alloc e => Outcome.bad_alloc e
    | Outcome.assert_fail => Outcome.assert_fail
    | Outcome.undefined => Outcome.undefined
    | Outcome.out_of_fuel => Outcome.out_of_fuel

/-- The traversal `for (it = first; it != end(); ++it)` collecting `*it`, with
a bound on the number of steps. -/
def traverse {α : Type} (h : Heap α) (l : SingleLinkedList) :
    Nat → BasicIterator → Outcome Empty (List α)
  | fuel, it =>
    if it = SingleLinkedList.end_ then Outcome.ok []
    else
      match fuel with
      | 0 => Outcome.out_of_fuel
      | n + 1 =>
        match it.deref h with
        | Outcome.ok v =>
          match it.incr h l with
          | Outcome.ok it1 =>
            match traverse h l n it1 with
            | Outcome.ok vs => Outcome.ok (v :: vs)
            | o => o
          | Outcome.bad_alloc e => Outcome.bad_alloc e
          | Outcome.assert_fail => Outcome.assert_fail
          | Outcome.undefined => Outcome.undefined
          | Outcome.out_of_fuel => Outcome.out_of_fuel
        | Outcome.bad_alloc e => Outcome.bad_alloc e
        | Outcome.assert_fail => Outcome.assert_fail
        | Outcome.undefined => Outcome.undefined
        | Outcome.out_of_fuel => Outcome.out_of_fuel

/-- The iterator reached from `first` by `k` applications of `++`. -/
def advance {α : Type} (h : Heap α) (l : SingleLinkedList) :
    Nat → BasicIterator → Outcome Empty BasicIterator
  | 0, it => Outcome.ok it
  | k + 1, it =>
    match it.incr h l with
    | Outcome.ok it1 => advance h l k it1
    | o => o

/-- The list has element sequence `S`: `GetSize()` is the length of `S` and the
traversal from `begin()` to `end()` visits exactly `S`. -/
def HasSeq {α : Type} (h : Heap α) (l : SingleLinkedList) (S : List α) : Prop :=
  GetSize l = S.length ∧ traverse h l S.length l.begin = Outcome.ok S

instance {α : Type} [DecidableEq α] (h : Heap α) (l : SingleLinkedList) (S : List α) :
    Decidable (HasSeq h l S) := by
  unfold HasSeq
  infer_instance

/-- The loop of the initializer-list constructor over the elements in the
order in which it visits them: `PushFront` of each. -/
def pushAll {α : Type} (A : Allocator α) :
    Heap α → SingleLinkedList → List α → Outcome (Heap α × SingleLinkedList) (Heap α × SingleLinkedList)
  | h, l, [] => Outcome.ok (h, l)
  | h, l, x :: rest =>
    match PushFront A h l x with
    | Outcome.ok (h1, l1) => pushAll A h1 l1 rest
    | o => o

/-- The constructor `SingleLinkedList(std::initializer_list<Type> input)`: the
list starts empty and the input is visited from `rbegin` to `rend`. -/
def fromInitializerList {α : Type} (A : Allocator α) (h : Heap α) (input : List α) :
    Outcome (Heap α × SingleLinkedList) (Heap α × SingleLinkedList) :=
  pushAll A h SingleLinkedList.empty input.reverse

/-- The method `swap`: exchanges `size_` and `head_.next_node` of the two
lists; the result is the new `*this` and the new `other`. -/
def swap (this other : SingleLinkedList) : SingleLinkedList × SingleLinkedList :=
  ({ head_next_node := other.head_next_node, size_ := other.size_ },
   { head_next_node := this.head_next_node, size_ := this.size_ })

/-- The loop `while (!IsEmpty()) PopFront();` of `Clear`, followed by
`size_ = 0`. -/
def ClearLoop {α : Type} : Nat → Heap α → SingleLinkedList → Outcome Empty (Heap α × SingleLinkedList)
  | fuel, h, l =>
    if IsEmpty l = true then Outcome.ok (h, { l with size_ := 0 })
    else
      match fuel with
      | 0 => Outcome.out_of_fuel
      | n + 1 =>
        match PopFront h l with
        | Outcome.ok (h1, l1) => ClearLoop n h1 l1
        | o => o

/-- The method `Clear` (also the body of the destructor).  Every turn of its
loop lowers `size_`, so `size_` turns suffice. -/
def Clear {α : Type} (h : Heap α) (l : SingleLinkedList) :
    Outcome Empty (Heap α × SingleLinkedList) :=
  ClearLoop l.size_ h l

/-- The expression `i.node_->value` of `CopyList`, a member access without an
assertion. -/
def nodeValue {α : Type} (h : Heap α) (i : BasicIterator) : Option α :=
  match i.node_ with
  | NodePtr.null => none
  | NodePtr.head => none
  | NodePtr.cell a =>
    match h a with
    | none => none
    | some n => some n.value

/-- The loop of `CopyList`:
`for (auto i = input.begin(); i != input.end(); ++i)
   current_node_to_mod = buff.InsertAfter(current_node_to_mod, i.node_->value);`
with a bound on the number of turns. -/
def copyLoop {α : Type} (A : Allocator α) (input : SingleLinkedList) :
    Nat → Heap α → SingleLinkedList → BasicIterator → BasicIterator →
      Outcome (Heap α × SingleLinkedList) (Heap α × SingleLinkedList)
  | fuel, h, buff, current_node_to_mod, i =>
    if i = SingleLinkedList.end_ then Outcome.ok (h, buff)
    else
      match fuel with
      | 0 => Outcome.out_of_fuel
      | n + 1 =>
        match nodeValue h i with
        | none => Outcome.undefined
        | some v =>
          match InsertAfter A h buff current_node_to_mod v with
          | Outcome.ok (h1, buff1, it) =>
            match i.incr h1 input with
            | Outcome.ok i1 => copyLoop A input n h1 buff1 it i1
            | Outcome.bad_alloc e => nomatch e
            | Outcome.assert_fail => Outcome.assert_fail
            | Outcome.undefined => Outcome.undefined
            | Outcome.out_of_fuel => Outcome.out_of_fuel
          | Outcome.bad_alloc e => Outcome.bad_alloc e
          | Outcome.assert_fail => Outcome.assert_fail
          | Outcome.undefined => Outcome.undefined
          | Outcome.out_of_fuel => Outcome.out_of_fuel

/-- The method `CopyList`.  The local list `buff` is destroyed (cleared) when
its block is left, normally or by an exception. -/
def CopyList {α : Type} (A : Allocator α) (fuel : Nat) (h : Heap α)
    (this input : SingleLinkedList) :
    Outcome (Heap α × SingleLinkedList) (Heap α × SingleLinkedList) :=
  if IsEmpty input = true then
    match Clear h this with
    | Outcome.ok r => Outcome.ok r
    | Outcome.bad_alloc e => nomatch e
    | Outcome.assert_fail => Outcome.assert_fail
    | Outcome.undefined => Outcome.undefined
    | Outcome.out_of_fuel => Outcome.out_of_fuel
  else
    match copyLoop A input fuel h SingleLinkedList.empty ⟨NodePtr.head⟩ input.begin with
    | Outcome.ok (h1, buff1) =>
      let buff2 : SingleLinkedList := { buff1 with size_ := GetSize input }
      match Clear h1 (swap this buff2).2 with
      | Outcome.ok (h2, _) => Outcome.ok (h2, (swap this buff2).1)
      | Outcome.bad_alloc e => nomatch e
      | Outcome.assert_fail => Outcome.assert_fail
      | Outcome.undefined => Outcome.undefined
      | Outcome.out_of_fuel => Outcome.out_of_fuel
    | Outcome.bad_alloc (h1, buff1) =>
      match Clear h1 buff1 with
      | Outcome.ok (h2, _) => Outcome.bad_alloc (h2, this)
      | Outcome.bad_alloc e => nomatch e
      | Outcome.assert_fail => Outcome.assert_fail
      | Outcome.undefined => Outcome.undefined
      | Outcome.out_of_fuel => Outcome.out_of_fuel
    | Outcome.assert_fail => Outcome.assert_fail
    | Outcome.undefined => Outcome.undefined
    | Outcome.out_of_fuel => Outcome.out_of_fuel

/-- The copy constructor `SingleLinkedList(const SingleLinkedList& input)`. -/
def copyConstruct {α : Type} (A : Allocator α) (fuel : Nat) (h : Heap α)
    (input : SingleLinkedList) :
    Outcome (Heap α × SingleLinkedList) (Heap α × SingleLinkedList) :=
  CopyList A fuel h SingleLinkedList.empty input

/-- The right-hand side of an assignment: the object assigned to itself
(`this == &rhs`) or another list object. -/
inductive Rhs where
  | self
  | other (rhs : SingleLinkedList)

/-- The copy assignment `operator=`. -/
def assign {α : Type} (A : Allocator α) (fuel : Nat) (h : Heap α)
    (this : SingleLinkedList) (rhs : Rhs) :
    Outcome (Heap α × SingleLinkedList) (Heap α × SingleLinkedList) :=
  match rhs with
  | Rhs.self => Outcome.ok (h, this)
  | Rhs.other r => CopyList A fuel h this r

/-- A call that cannot throw, seen from a caller that can. -/
def Outcome.noexcept {ε ρ : Type} : Outcome Empty ρ → Outcome ε ρ
  | Outcome.ok r => Outcome.ok r
  | Outcome.bad_alloc e => nomatch e
  | Outcome.assert_fail => Outcome.assert_fail
  | Outcome.undefined => Outcome.undefined
  | Outcome.out_of_fuel => Outcome.out_of_fuel

/-- The state a call leaves behind when the program goes on: after a normal
return or after a propagated `std::bad_alloc`. -/
def Outcome.after {σ : Type} : Outcome σ σ → Option σ
  | Outcome.ok s => some s
  | Outcome.bad_alloc s => some s
  | _ => none

/-- A mutating call on a list; positions are given by the number of
increments from `before_begin()`. -/
inductive Mutation (α : Type) where
  | pushFront (x : α)
  | popFront
  | insertAfter (k : Nat) (x : α)
  | eraseAfter (k : Nat)
  | clear

/-- Run one mutating call on a list. -/
def applyMutation {α : Type} (A : Allocator α) (h : Heap α) (l : SingleLinkedList) :
    Mutation α → Outcome (Heap α × SingleLinkedList) (Heap α × SingleLinkedList)
  | Mutation.pushFront x => PushFront A h l x
  | Mutation.popFront => (PopFront h l).noexcept
  | Mutation.insertAfter k x =>
    match advance h l k SingleLinkedList.before_begin with
    | Outcome.ok pos =>
      match InsertAfter A h l pos x with
      | Outcome.ok (h1, l1, _) => Outcome.ok (h1, l1)
      | Outcome.bad_alloc e => Outcome.bad_alloc e
      | Outcome.assert_fail => Outcome.assert_fail
      | Outcome.undefined => Outcome.undefined
      | Outcome.out_of_fuel => Outcome.out_of_fuel
    | Outcome.bad_alloc e => nomatch e
    | Outcome.assert_fail => Outcome.assert_fail
    | Outcome.undefined => Outcome.undefined
    | Outcome.out_of_fuel => Outcome.out_of_fuel
  | Mutation.eraseAfter k =>
    match advance h l k SingleLinkedList.before_begin with
    | Outcome.ok pos =>
      match EraseAfter h l pos with
      | Outcome.ok (h1, l1, _) => Outcome.ok (h1, l1)
      | Outcome.bad_alloc e => nomatch e
      | Outcome.assert_fail => Outcome.assert_fail
      | Outcome.undefined => Outcome.undefined
      | Outcome.out_of_fuel => Outcome.out_of_fuel
    | Outcome.bad_alloc e => nomatch e
    | Outcome.assert_fail => Outcome.assert_fail
    | Outcome.undefined => Outcome.undefined
    | Outcome.out_of_fuel => Outcome.out_of_fuel
  | Mutation.clear => (Clear h l).noexcept

/-- The addresses met by following `next_node` from `p`, at most `n` of them. -/
def chainAddrs {α : Type} (h : Heap α) : Nat → Option Addr → List Addr
  | 0, _ => []
  | _ + 1, none => []
  | n + 1, some a =>
    a :: (match h a with
      | none => []
      | some nd => chainAddrs h n nd.next_node)

/-- The addresses of the nodes a list owns: the first `size_` nodes of its
chain. -/
def nodes {α : Type} (h : Heap α) (l : SingleLinkedList) : List Addr :=
  chainAddrs h l.size_ l.head_next_node

/-- Sequencing of two steps: the second runs on the result of the first when
the first returned normally. -/
def Outcome.bind {ε ρ σ : Type} (o : Outcome ε ρ) (f : ρ → Outcome ε σ) : Outcome ε σ :=
  match o with
  | Outcome.ok r => f r
  | Outcome.bad_alloc e => Outcome.bad_alloc e
  | Outcome.assert_fail => Outcome.assert_fail
  | Outcome.undefined => Outcome.undefined
  | Outcome.out_of_fuel => Outcome.out_of_fuel

/-- The C++ standard algorithm `std::equal(first1, last1, first2, last2)` on
forward iterators, with `last1` and `last2` the `end()` iterator:
`for (; first1 != last1 && first2 != last2; ++first1, ++first2)
   if (!(*first1 == *first2)) return false;
 return first1 == last1 && first2 == last2;` -/
def std_equal {α : Type} [BEq α] (h : Heap α) (l1 l2 : SingleLinkedList) :
    Nat → BasicIterator → BasicIterator → Outcome Empty Bool
  | fuel, first1, first2 =>
    if first1 ≠ SingleLinkedList.end_ ∧ first2 ≠ SingleLinkedList.end_ then
      match fuel with
      | 0 => Outcome.out_of_fuel
      | n + 1 =>
        (first1.deref h).bind fun a =>
        (first2.deref h).bind fun b =>
        if (a == b) = false then Outcome.ok false
        else
          (first1.incr h l1).bind fun i1 =>
          (first2.incr h l2).bind fun i2 =>
          std_equal h l1 l2 n i1 i2
    else
      Outcome.ok (decide (first1 = SingleLinkedList.end_) && decide (first2 = SingleLinkedList.end_))

/-- The C++ standard algorithm
`std::lexicographical_compare(first1, last1, first2, last2)` on forward
iterators, with `last1` and `last2` the `end()` iterator:
`for (; first1 != last1 && first2 != last2; ++first1, ++first2) {
   if (*first1 < *first2) return true;
   if (*first2 < *first1) return false; }
 return first1 == last1 && first2 != last2;` -/
def std_lexicographical_compare {α : Type} [LT α] [DecidableRel (fun a b : α => a < b)]
    (h : Heap α) (l1 l2 : SingleLinkedList) :
    Nat → BasicIterator → BasicIterator → Outcome Empty Bool
  | fuel, first1, first2 =>
    if first1 ≠ SingleLinkedList.end_ ∧ first2 ≠ SingleLinkedList.end_ then
      match fuel with
      | 0 => Outcome.out_of_fuel
      | n + 1 =>
        (first1.deref h).bind fun a =>
        (first2.deref h).bind fun b =>
        if a < b then Outcome.ok true
        else if b < a then Outcome.ok false
        else
          (first1.incr h l1).bind fun i1 =>
          (first2.incr h l2).bind fun i2 =>
          std_lexicographical_compare h l1 l2 n i1 i2
    else
      Outcome.ok (decide (first1 = SingleLinkedList.end_) && decide (first2 ≠ SingleLinkedList.end_))

/-- The member `operator<`. -/
def operator_lt {α : Type} [LT α] [DecidableRel (fun a b : α => a < b)]
    (fuel : Nat) (h : Heap α) (this rhs : SingleLinkedList) : Outcome Empty Bool :=
  std_lexicographical_compare h this rhs fuel this.begin rhs.begin

/-- The member `operator==`. -/
def operator_eq {α : Type} [BEq α] (fuel : Nat) (h : Heap α) (this rhs : SingleLinkedList) :
    Outcome Empty Bool :=
  if GetSize this = GetSize rhs then std_equal h this rhs fuel this.begin rhs.begin
  else Outcome.ok false

/-- The member `operator>`: `rhs < *this`. -/
def operator_gt {α : Type} [LT α] [DecidableRel (fun a b : α => a < b)]
    (fuel : Nat) (h : Heap α) (this rhs : SingleLinkedList) : Outcome Empty Bool :=
  operator_lt fuel h rhs this

/-- The member `operator!=`: `!(*this == rhs)`. -/
def operator_ne {α : Type} [BEq α] (fuel : Nat) (h : Heap α) (this rhs : SingleLinkedList) :
    Outcome Empty Bool :=
  (operator_eq fuel h this rhs).bind fun r => Outcome.ok (!r)

/-- The member `operator>=`: `!(*this < rhs)`. -/
def operator_ge {α : Type} [LT α] [DecidableRel (fun a b : α => a < b)]
    (fuel : Nat) (h : Heap α) (this rhs : SingleLinkedList) : Outcome Empty Bool :=
  (operator_lt fuel h this rhs).bind fun r => Outcome.ok (!r)

/-- The member `operator<=`: `!(rhs < *this)`. -/
def operator_le {α : Type} [LT α] [DecidableRel (fun a b : α => a < b)]
    (fuel : Nat) (h : Heap α) (this rhs : SingleLinkedList) : Outcome Empty Bool :=
  (operator_lt fuel h rhs this).bind fun r => Outcome.ok (!r)

/-- Pairwise equality of two sequences: same length and equal elements at
every index. -/
def seqEq {α : Type} [BEq α] : List α → List α → Bool
  | [], [] => true
  | a :: as, b :: bs => (a == b) && seqEq as bs
  | _, _ => false

/-- Lexicographic comparison of two sequences, element by element. -/
def seqLt {α : Type} [LT α] [DecidableRel (fun a b : α => a < b)] : List α → List α → Bool
  | [], [] => false
  | [], _ :: _ => true
  | _ :: _, [] => false
  | a :: as, b :: bs => if a < b then true else if b < a then false else seqLt as bs

/-- The sequence `A` is a strict prefix of `B`. -/
def StrictPrefix {α : Type} (A B : List α) : Prop :=
  A.length < B.length ∧ B.take A.length = A

/-- The sequences agree before some index at which the element of `A` is less
than the element of `B`. -/
def FirstDiffLess {α : Type} [LT α] (A B : List α) : Prop :=
  ∃ k, ∃ (h1 : k < A.length) (h2 : k < B.length), A.take k = B.take k ∧ A[k] < B[k]

/-- Strict lexicographic order on sequences, as the specification words it. -/
def LexLess {α : Type} [LT α] (A B : List α) : Prop :=
  StrictPrefix A B ∨ FirstDiffLess A B

/-- The free function `swap(lhs, rhs)`: `lhs.swap(rhs)`. -/
def swap_free (lhs rhs : SingleLinkedList) : SingleLinkedList × SingleLinkedList :=
  swap lhs rhs

/-- The method `cbegin`: `Iterator{head_.next_node}`. -/
def SingleLinkedList.cbegin (l : SingleLinkedList) : BasicIterator :=
  ⟨NodePtr.ofLink l.head_next_node⟩

/-- The method `cend`: `BasicIterator<Type>()`. -/
def SingleLinkedList.cend : BasicIterator := ⟨NodePtr.null⟩

/-- A program state: the heap and the list objects alive in it, each in a
numbered variable. -/
structure World (α : Type) where
  heap : Heap α
  lists : Nat → Option SingleLinkedList

/-- A world with a new heap and the list variable `i` holding `l`. -/
def World.put {α : Type} (w : World α) (h : Heap α) (i : Nat) (l : SingleLinkedList) :
    World α :=
  ⟨h, fun k => if k = i then some l else w.lists k⟩

/-- One step of a program that uses lists: a construction into a free variable
(default, from an initializer sequence, or as a copy of the list `j`), a
mutating call on the list `i`, `swap`, or the copy assignment `i = j`. -/
inductive Command (α : Type) where
  | construct (i : Nat)
  | constructFrom (i : Nat) (input : List α)
  | constructCopy (i j : Nat)
  | mutate (i : Nat) (m : Mutation α)
  | swapLists (i j : Nat)
  | assignList (i j : Nat)

/-- Run one command.  The result is the state in which the program goes on:
after a normal return or after a propagated `std::bad_alloc` (a constructor
that throws leaves no object); `none` when the command names a variable it
cannot use or the call trapped or had undefined behaviour.  The copy loop gets
one turn per node the source counts in `size_`. -/
def World.step {α : Type} (A : Allocator α) (w : World α) : Command α → Option (World α)
  | Command.construct i =>
    match w.lists i with
    | some _ => none
    | none => some (w.put w.heap i SingleLinkedList.empty)
  | Command.constructFrom i input =>
    match w.lists i with
    | some _ => none
    | none =>
      match fromInitializerList A w.heap input with
      | Outcome.ok (h, l) => some (w.put h i l)
      | Outcome.bad_alloc (h, _) => some ⟨h, w.lists⟩
      | _ => none
  | Command.constructCopy i j =>
    match w.lists i, w.lists j with
    | none, some r =>
      match copyConstruct A (GetSize r) w.heap r with
      | Outcome.ok (h, l) => some (w.put h i l)
      | Outcome.bad_alloc (h, _) => some ⟨h, w.lists⟩
      | _ => none
    | _, _ => none
  | Command.mutate i m =>
    match w.lists i with
    | none => none
    | some l =>
      match (applyMutation A w.heap l m).after with
      | some (h, l1) => some (w.put h i l1)
      | none => none
  | Command.swapLists i j =>
    match w.lists i, w.lists j with
    | some a, some b => some ((w.put w.heap i (swap a b).1).put w.heap j (swap a b).2)
    | _, _ => none
  | Command.assignList i j =>
    match w.lists i, w.lists j with
    | some t, some r =>
      match (assign A (GetSize r) w.heap t (if i = j then Rhs.self else Rhs.other r)).after with
      | some (h, t1) => some (w.put h i t1)
      | none => none
    | _, _ => none

/-- Run a sequence of commands. -/
def World.run {α : Type} (A : Allocator α) : World α → List (Command α) → Option (World α)
  | w, [] => some w
  | w, c :: cs =>
    match w.step A c with
    | none => none
    | some w1 => World.run A w1 cs

/-- Strict lexicographic order on sequences in terms of `<` alone: before some
index `k` no element of `A` is less than its partner in `B` and none of `B` is
less than its partner in `A`, and either `A` ends at `k` while `B` goes on, or
the element of `A` at `k` is less than the element of `B` at `k`. -/
def LexLessUpToEquiv {α : Type} [LT α] (A B : List α) : Prop :=
  ∃ k, (∀ i, ∀ (h1 : i < A.length) (h2 : i < B.length), i < k →
      ¬ A[i] < B[i] ∧ ¬ B[i] < A[i]) ∧
    ((k = A.length ∧ k < B.length) ∨
      ∃ (h1 : k < A.length) (h2 : k < B.length), A[k] < B[k])

/-- An element type whose `operator<` compares the key alone, while two
elements with the same key can still differ in their payload. -/
structure Keyed where
  key : Nat
  payload : Nat
  deriving DecidableEq

instance Keyed.instLT : LT Keyed := ⟨fun a b => a.key < b.key⟩

instance Keyed.decLt : DecidableRel (fun a b : Keyed => a < b) :=
  fun a b => Nat.decLt a.key b.key

/-- The nodes `cells` (address and value, in order) are linked one to the next
in the heap, starting at the pointer `p` and ending with the pointer `q`. -/
def Seg {α : Type} (h : Heap α) : Option Addr → List (Addr × α) → Option Addr → Prop
  | p, [], q => p = q
  | p, c :: rest, q => p = some c.1 ∧ ∃ nx, h c.1 = some ⟨c.2, nx⟩ ∧ Seg h nx rest q

/-- The list object owns exactly the nodes `cells`: they form the chain from
`head_.next_node` to `nullptr`, and `size_` is their number. -/
def Rep {α : Type} (h : Heap α) (l : SingleLinkedList) (cells : List (Addr × α)) : Prop :=
  Seg h l.head_next_node cells none ∧ l.size_ = cells.length

/-- The pointer that ends a segment: the address of its last node, or the
given default for the empty segment. -/
def lastPtr {α : Type} (pre : List (Addr × α)) (dflt : NodePtr) : NodePtr :=
  match pre.getLast? with
  | none => dflt
  | some c => NodePtr.cell c.1

/-- The state before any list exists: a heap with whatever else the program
holds, and no list object. -/
def World.start {α : Type} (h : Heap α) : World α :=
  ⟨h, fun _ => none⟩

/-- Every list of the world owns a chain of its own: the chains of different
lists share no node. -/
def WorldInv {α : Type} (w : World α) : Prop :=
  ∃ c : Nat → List (Addr × α),
    (∀ i l, w.lists i = some l → Rep w.heap l (c i)) ∧
    (∀ i j li lj, i ≠ j → w.lists i = some li → w.lists j = some lj →
      ∀ x ∈ c i, ∀ y ∈ c j, x.1 ≠ y.1)

/-! ## Concrete states used to instantiate the theorems -/

/-- The first address of a pool that is not in use. -/
def firstFree {α : Type} (h : Heap α) : List Addr → Option Addr
  | [] => none
  | a :: rest => if (h a).isNone = true then some a else firstFree h rest

/-- An allocator that hands out the first unused address of a pool and fails
when the pool is exhausted. -/
def poolAllocator (α : Type) (pool : List Addr) : Allocator α where
  pick := fun h => firstFree h pool
  fresh := by
    intro h a hp
    induction pool with
    | nil => cases hp
    | cons b rest ih =>
      unfold firstFree at hp
      by_cases hb : (h b).isNone = true
      · rw [if_pos hb] at hp
        cases hp
        simpa using hb
      · rw [if_neg hb] at hp
        exact ih hp

/-- A heap holding the chain `1, 2` at the addresses 10 and 11. -/
def heap12 : Heap Nat := fun a =>
  if a = 10 then some ⟨1, some 11⟩ else if a = 11 then some ⟨2, none⟩ else none

/-- The list object that owns the chain of `heap12`. -/
def list12 : SingleLinkedList := ⟨some 10, 2⟩

/-- A heap holding four chains: `1, 2, 3` at 20.., `1, 2, 3, 4` at 30..,
`1, 3` at 40.. and `1, 2` at 50... -/
def heapCmp : Heap Nat := fun a =>
  if a = 20 then some ⟨1, some 21⟩ else if a = 21 then some ⟨2, some 22⟩
  else if a = 22 then some ⟨3, none⟩
  else if a = 30 then some ⟨1, some 31⟩ else if a = 31 then some ⟨2, some 32⟩
  else if a = 32 then some ⟨3, some 33⟩ else if a = 33 then some ⟨4, none⟩
  else if a = 40 then some ⟨1, some 41⟩ else if a = 41 then some ⟨3, none⟩
  else if a = 50 then some ⟨1, some 51⟩ else if a = 51 then some ⟨2, none⟩
  else none

/-- The list `1, 2, 3` of `heapCmp`. -/
def list123 : SingleLinkedList := ⟨some 20, 3⟩

/-- The list `1, 2, 3, 4` of `heapCmp`. -/
def list1234 : SingleLinkedList := ⟨some 30, 4⟩

/-- The list `1, 3` of `heapCmp`. -/
def list13 : SingleLinkedList := ⟨some 40, 2⟩

/-- The list `1, 2` of `heapCmp`. -/
def list12b : SingleLinkedList := ⟨some 50, 2⟩

/-- A program that constructs lists in the three ways and uses every mutating
operation. -/
def sampleProgram : List (Command Nat) :=
  [Command.constructFrom 0 [3, 1, 2],
   Command.mutate 0 (Mutation.pushFront 0),
   Command.mutate 0 Mutation.popFront,
   Command.mutate 0 (Mutation.insertAfter 1 9),
   Command.constructCopy 1 0,
   Command.construct 2,
   Command.swapLists 1 2,
   Command.assignList 1 0,
   Command.mutate 2 Mutation.clear,
   Command.mutate 0 (Mutation.eraseAfter 0)]

/-- A heap holding two chains of `Keyed` elements: `(0,1), (0,0)` at 10.. and
`(0,0), (1,0)` at 20... -/
def heapKeyed : Heap Keyed := fun a =>
  if a = 10 then some ⟨⟨0, 1⟩, some 11⟩ else if a = 11 then some ⟨⟨0, 0⟩, none⟩
  else if a = 20 then some ⟨⟨0, 0⟩, some 21⟩ else if a = 21 then some ⟨⟨1, 0⟩, none⟩
  else none

/-- The list `(0,1), (0,0)` of `heapKeyed`. -/
def keyedA : SingleLinkedList := ⟨some 10, 2⟩

/-- The list `(0,0), (1,0)` of `heapKeyed`. -/
def keyedB : SingleLinkedList := ⟨some 20, 2⟩

/-! ## Lemmas on chains -/

theorem seg_append {α : Type} (h : Heap α) (xs ys : List (Addr × α)) (p q : Option Addr) :
    Seg h p (xs ++ ys) q ↔ ∃ m, Seg h p xs m ∧ Seg h m ys q := by
  induction xs generalizing p with
  | nil => simp [Seg]
  | cons c rest ih =>
    rw [List.cons_append]
    simp only [Seg, ih]
    constructor
    · rintro ⟨hp, nx, hc, m, h1, h2⟩
      exact ⟨m, ⟨hp, nx, hc, h1⟩, h2⟩
    · rintro ⟨m, ⟨hp, nx, hc, h1⟩, h2⟩
      exact ⟨hp, nx, hc, m, h1, h2⟩

theorem seg_alloc {α : Type} {h : Heap α} {cells : List (Addr × α)} {p q : Option Addr}
    (hs : Seg h p cells q) : ∀ c ∈ cells, h c.1 ≠ none := by
  induction cells generalizing p with
  | nil => simp
  | cons c rest ih =>
    obtain ⟨_, nx, hc, hr⟩ := hs
    intro d hd
    rcases List.mem_cons.1 hd with rfl | hd
    · simp [hc]
    · exact ih hr d hd

theorem seg_frame {α : Type} {h h1 : Heap α} {cells : List (Addr × α)} {p q : Option Addr}
    (hs : Seg h p cells q) (hf : ∀ c ∈ cells, h1 c.1 = h c.1) : Seg h1 p cells q := by
  induction cells generalizing p with
  | nil => exact hs
  | cons c rest ih =>
    obtain ⟨hp, nx, hc, hr⟩ := hs
    refine ⟨hp, nx, ?_, ih hr fun d hd => hf d (List.mem_cons_of_mem _ hd)⟩
    rw [hf c (List.mem_cons_self _ _)]
    exact hc

theorem seg_det {α : Type} {h : Heap α} {xs ys : List (Addr × α)} {p : Option Addr}
    (hx : Seg h p xs none) (hy : Seg h p ys none) : xs = ys := by
  induction xs generalizing p ys with
  | nil =>
    cases ys with
    | nil => rfl
    | cons d ys =>
      obtain ⟨hp, _⟩ := hy
      simp [Seg] at hx
      simp [hx] at hp
  | cons c xs ih =>
    obtain ⟨hp, nx, hc, hr⟩ := hx
    cases ys with
    | nil =>
      simp [Seg] at hy
      simp [hy] at hp
    | cons d ys =>
      obtain ⟨hp1, nx1, hd, hr1⟩ := hy
      have e : c.1 = d.1 := by
        rw [hp] at hp1
        exact Option.some.inj hp1
      rw [← e, hc] at hd
      have e2 := Option.some.inj hd
      have e3 : c.2 = d.2 := congrArg Node.value e2
      have e4 : nx = nx1 := congrArg Node.next_node e2
      subst e4
      have : c = d := Prod.ext e e3
      rw [this, ih hr hr1]

theorem seg_nodup {α : Type} {h : Heap α} {cells : List (Addr × α)} {p : Option Addr}
    (hs : Seg h p cells none) : (cells.map Prod.fst).Nodup := by
  induction cells generalizing p with
  | nil => simp
  | cons c rest ih =>
    obtain ⟨hp, nx, hc, hr⟩ := hs
    rw [List.map_cons, List.nodup_cons]
    refine ⟨?_, ih hr⟩
    intro hmem
    obtain ⟨d, hd, hdc⟩ := List.mem_map.1 hmem
    obtain ⟨r1, r2, rfl⟩ := List.append_of_mem hd
    obtain ⟨m, _, hm⟩ := (seg_append h r1 (d :: r2) nx none).1 hr
    obtain ⟨_, nx1, hd1, hr2⟩ := hm
    rw [hdc, hc] at hd1
    have e4 : nx = nx1 := congrArg Node.next_node (Option.some.inj hd1)
    subst e4
    have := congrArg List.length (seg_det hr hr2)
    simp at this
    omega

theorem nodup_addr_length {l : List Addr} (hl : l.Nodup) : l.length < SIZE_MOD := by
  have h1 : l.length ≤ Fintype.card Addr := List.Nodup.length_le_card hl
  have h2 : Fintype.card Addr = 18446744073709551615 := Fintype.card_fin _
  have h3 : SIZE_MOD = 18446744073709551616 := rfl
  omega

/-! ## Traversal and chains -/

theorem traverse_null {α : Type} (h : Heap α) (l : SingleLinkedList) (n : Nat) :
    traverse h l n ⟨NodePtr.null⟩ = Outcome.ok [] := by
  unfold traverse
  simp [SingleLinkedList.end_]

theorem traverse_cell {α : Type} (h : Heap α) (l : SingleLinkedList) (n : Nat) (a : Addr) :
    traverse h l (n + 1) ⟨NodePtr.cell a⟩ =
      match h a with
      | none => Outcome.undefined
      | some nd =>
        match traverse h l n ⟨NodePtr.ofLink nd.next_node⟩ with
        | Outcome.ok vs => Outcome.ok (nd.value :: vs)
        | o => o := by
  rw [traverse]
  simp only [SingleLinkedList.end_, BasicIterator.mk.injEq, reduceCtorEq, if_false,
    BasicIterator.deref, BasicIterator.incr, readNext]
  cases h a <;> rfl

theorem traverse_of_seg {α : Type} {h : Heap α} (l : SingleLinkedList)
    {cells : List (Addr × α)} {p : Option Addr} (hs : Seg h p cells none) (n : Nat)
    (hn : cells.length ≤ n) :
    traverse h l n ⟨NodePtr.ofLink p⟩ = Outcome.ok (cells.map Prod.snd) := by
  induction cells generalizing p n with
  | nil =>
    have : p = none := hs
    subst this
    exact traverse_null h l n
  | cons c rest ih =>
    obtain ⟨hp, nx, hc, hr⟩ := hs
    subst hp
    cases n with
    | zero => simp at hn
    | succ n =>
      have hn1 : rest.length ≤ n := by simpa using hn
      rw [NodePtr.ofLink, traverse_cell, hc]
      simp only [ih hr n hn1, List.map_cons]

theorem seg_of_traverse {α : Type} {h : Heap α} {l : SingleLinkedList} {n : Nat}
    {p : Option Addr} {S : List α}
    (ht : traverse h l n ⟨NodePtr.ofLink p⟩ = Outcome.ok S) :
    ∃ cells, Seg h p cells none ∧ cells.map Prod.snd = S := by
  induction n generalizing p S with
  | zero =>
    cases p with
    | none =>
      rw [NodePtr.ofLink, traverse_null] at ht
      cases ht
      exact ⟨[], rfl, rfl⟩
    | some a =>
      rw [NodePtr.ofLink, traverse] at ht
      simp [SingleLinkedList.end_] at ht
  | succ n ih =>
    cases p with
    | none =>
      rw [NodePtr.ofLink, traverse_null] at ht
      cases ht
      exact ⟨[], rfl, rfl⟩
    | some a =>
      rw [NodePtr.ofLink, traverse_cell] at ht
      cases hc : h a with
      | none => simp [hc] at ht
      | some nd =>
        rw [hc] at ht
        simp only at ht
        cases hr : traverse h l n ⟨NodePtr.ofLink nd.next_node⟩ with
        | ok vs =>
          rw [hr] at ht
          cases ht
          obtain ⟨cells, hseg, hmap⟩ := ih hr
          exact ⟨(a, nd.value) :: cells, ⟨rfl, nd.next_node, hc, hseg⟩, by simp [hmap]⟩
        | bad_alloc e => simp [hr] at ht
        | assert_fail => simp [hr] at ht
        | undefined => simp [hr] at ht
        | out_of_fuel => simp [hr] at ht

theorem hasSeq_iff_rep {α : Type} (h : Heap α) (l : SingleLinkedList) (S : List α) :
    HasSeq h l S ↔ ∃ cells, Rep h l cells ∧ cells.map Prod.snd = S := by
  constructor
  · rintro ⟨hsz, ht⟩
    obtain ⟨cells, hseg, hmap⟩ := seg_of_traverse ht
    refine ⟨cells, ⟨hseg, ?_⟩, hmap⟩
    rw [← hmap, List.length_map] at hsz
    exact hsz
  · rintro ⟨cells, ⟨hseg, hsz⟩, hmap⟩
    subst hmap
    refine ⟨by simp [GetSize, hsz], ?_⟩
    exact traverse_of_seg l hseg _ (by simp)

theorem advance_seg {α : Type} {h : Heap α} (l : SingleLinkedList)
    {pre : List (Addr × α)} {p q : Option Addr} (hs : Seg h p pre q) :
    advance h l pre.length ⟨NodePtr.ofLink p⟩ = Outcome.ok ⟨NodePtr.ofLink q⟩ := by
  induction pre generalizing p with
  | nil =>
    have : p = q := hs
    subst this
    rfl
  | cons c rest ih =>
    obtain ⟨hp, nx, hc, hr⟩ := hs
    subst hp
    simp only [List.length_cons, advance, NodePtr.ofLink, BasicIterator.incr, readNext, hc]
    exact ih hr

theorem advance_head {α : Type} (h : Heap α) (l : SingleLinkedList) (k : Nat) :
    advance h l (k + 1) ⟨NodePtr.head⟩ = advance h l k l.begin := by
  simp [advance, BasicIterator.incr, readNext, SingleLinkedList.begin]

theorem seg_snoc {α : Type} (h : Heap α) (pre : List (Addr × α)) (c : Addr × α)
    (p q : Option Addr) :
    Seg h p (pre ++ [c]) q ↔
      Seg h p pre (some c.1) ∧ ∃ nx, h c.1 = some ⟨c.2, nx⟩ ∧ nx = q := by
  rw [seg_append]
  constructor
  · rintro ⟨m, h1, hm, nx, hc, hq⟩
    subst hm
    exact ⟨h1, nx, hc, hq⟩
  · rintro ⟨h1, nx, hc, hq⟩
    exact ⟨some c.1, h1, rfl, nx, hc, hq⟩

/-- Advancing `k` times from `before_begin()` over a chain that has a prefix
of `k` nodes reaches the sentinel (`k = 0`) or the last node of the prefix. -/
theorem advance_before_begin {α : Type} {h : Heap α} (l : SingleLinkedList)
    {pre : List (Addr × α)} {q : Option Addr} (hs : Seg h l.head_next_node pre q) :
    advance h l pre.length SingleLinkedList.before_begin =
      Outcome.ok ⟨lastPtr pre NodePtr.head⟩ := by
  rcases List.eq_nil_or_concat pre with rfl | ⟨pre1, c, rfl⟩
  · rfl
  · rw [List.concat_eq_append] at hs ⊢
    obtain ⟨h1, _⟩ := (seg_snoc h pre1 c _ _).1 hs
    rw [List.length_append, List.length_singleton, SingleLinkedList.before_begin, advance_head,
      SingleLinkedList.begin, advance_seg l h1]
    simp [lastPtr, NodePtr.ofLink]

/-! ## Framing -/

theorem seg_set {α : Type} {h : Heap α} {cells : List (Addr × α)} {p q : Option Addr}
    (hs : Seg h p cells q) (a : Addr) (n : Node α) (ha : ∀ c ∈ cells, c.1 ≠ a) :
    Seg (h.set a n) p cells q :=
  seg_frame hs fun c hc => by simp [Heap.set, ha c hc]

theorem seg_free {α : Type} {h : Heap α} {cells : List (Addr × α)} {p q : Option Addr}
    (hs : Seg h p cells q) (a : Addr) (ha : ∀ c ∈ cells, c.1 ≠ a) :
    Seg (h.free a) p cells q :=
  seg_frame hs fun c hc => by simp [Heap.free, ha c hc]

theorem seg_ne_of_free {α : Type} {h : Heap α} {cells : List (Addr × α)} {p q : Option Addr}
    (hs : Seg h p cells q) {a : Addr} (ha : h a = none) : ∀ c ∈ cells, c.1 ≠ a := by
  intro c hc e
  exact seg_alloc hs c hc (e ▸ ha)

theorem rep_size_lt {α : Type} {h : Heap α} {cells : List (Addr × α)} {p : Option Addr}
    (hs : Seg h p cells none) : cells.length < SIZE_MOD := by
  have := nodup_addr_length (seg_nodup hs)
  simpa using this

/-! ## InsertAfter -/

theorem InsertAfter_seg {α : Type} (A : Allocator α) {h : Heap α} {l : SingleLinkedList}
    {pre post : List (Addr × α)} {q : Option Addr} (v : α) {buff : Addr}
    (h1 : Seg h l.head_next_node pre q) (h2 : Seg h q post none)
    (hsz : l.size_ = (pre ++ post).length) (hb : A.pick h = some buff) :
    ∃ h' l', InsertAfter A h l ⟨lastPtr pre NodePtr.head⟩ v
        = Outcome.ok (h', l', ⟨NodePtr.cell buff⟩) ∧
      Rep h' l' (pre ++ (buff, v) :: post) ∧
      (∀ b, b ≠ buff → NodePtr.cell b ≠ lastPtr pre NodePtr.head → h' b = h b) := by
  have hfree : h buff = none := A.fresh h buff hb
  have horig : Seg h l.head_next_node (pre ++ post) none := (seg_append h pre post _ _).2 ⟨q, h1, h2⟩
  have hnd := seg_nodup horig
  have key : ∀ (h' : Heap α) (l1 : SingleLinkedList),
      Seg h' l1.head_next_node (pre ++ (buff, v) :: post) none → l1.size_ = l.size_ →
      Rep h' { l1 with size_ := (l1.size_ + 1) % SIZE_MOD } (pre ++ (buff, v) :: post) := by
    intro h' l1 hs he
    refine ⟨hs, ?_⟩
    have hlt := rep_size_lt hs
    have : l1.size_ + 1 = (pre ++ (buff, v) :: post).length := by
      rw [he, hsz]
      simp only [List.length_append, List.length_cons]
      omega
    show (l1.size_ + 1) % SIZE_MOD = _
    rw [this, Nat.mod_eq_of_lt hlt]
  rcases List.eq_nil_or_concat pre with rfl | ⟨pre1, c, rfl⟩
  · have hq : l.head_next_node = q := h1
    refine ⟨h.set buff ⟨v, l.head_next_node⟩, _, ?_, key _ { l with head_next_node := some buff } ?_ rfl, ?_⟩
    · simp [InsertAfter, lastPtr, hb, readNext, writeNext]
    · refine ⟨rfl, l.head_next_node, by simp [Heap.set], ?_⟩
      rw [hq]
      exact seg_set h2 _ _ (seg_ne_of_free h2 hfree)
    · intro b hb1 _
      simp [Heap.set, hb1]
  · rw [List.concat_eq_append] at h1 hsz horig hnd key ⊢
    obtain ⟨hp1, nx, hc, rfl⟩ := (seg_snoc h pre1 c _ _).1 h1
    have hcb : c.1 ≠ buff := fun e => by
      rw [e, hfree] at hc
      cases hc
    have hlast : lastPtr (pre1 ++ [c]) NodePtr.head = NodePtr.cell c.1 := by
      simp [lastPtr]
    have hn1 : ∀ d ∈ pre1, d.1 ≠ c.1 := by
      intro d hd e
      rw [List.map_append, List.map_append, List.nodup_append] at hnd
      have := (List.nodup_append.1 hnd.1).2.2
      exact this (List.mem_map_of_mem Prod.fst hd) (by simp [e])
    have hn2 : ∀ d ∈ post, d.1 ≠ c.1 := by
      intro d hd e
      rw [List.map_append, List.map_append, List.nodup_append] at hnd
      exact hnd.2.2 (by simp) (e ▸ List.mem_map_of_mem Prod.fst hd)
    refine ⟨(h.set buff ⟨v, nx⟩).set c.1 ⟨c.2, some buff⟩, _, ?_, key _ l ?_ rfl, ?_⟩
    · simp [InsertAfter, hlast, hb, readNext, writeNext, hc, Heap.set, hcb]
    · rw [List.append_assoc, seg_append]
      refine ⟨some c.1, ?_, rfl, some buff, by simp [Heap.set], rfl, nx, ?_, ?_⟩
      · exact seg_set (seg_set hp1 _ _ (seg_ne_of_free hp1 hfree)) _ _ hn1
      · simp [Heap.set, Ne.symm hcb]
      · exact seg_set (seg_set h2 _ _ (seg_ne_of_free h2 hfree)) _ _ hn2
    · intro b hb1 hb2
      rw [hlast] at hb2
      have : b ≠ c.1 := fun e => hb2 (by rw [e])
      simp [Heap.set, hb1, this]

theorem lastPtr_snoc {α : Type} (pre : List (Addr × α)) (c : Addr × α) (d : NodePtr) :
    lastPtr (pre ++ [c]) d = NodePtr.cell c.1 := by
  simp [lastPtr]

theorem rep_split {α : Type} {h : Heap α} {l : SingleLinkedList} {cells : List (Addr × α)}
    (hr : Rep h l cells) (k : Nat) :
    ∃ q, Seg h l.head_next_node (cells.take k) q ∧ Seg h q (cells.drop k) none := by
  have := hr.1
  rw [← List.take_append_drop k cells, seg_append] at this
  exact this

/-- C1: on a list with element sequence `S`, for the position `pos` reached from
`before_begin()` by `k ≤ |S|` increments and a successful allocation,
`InsertAfter(pos, v)` returns normally, the list then has the sequence
`take k S ++ [v] ++ drop k S`, `GetSize()` has grown by exactly one, and the
returned iterator dereferences to `v` and is the position of index `k + 1`. -/
theorem InsertAfter_spec {α : Type} (A : Allocator α) (h : Heap α) (l : SingleLinkedList)
    (S : List α) (k : Nat) (pos : BasicIterator) (v : α)
    (hS : HasSeq h l S) (hk : k ≤ S.length)
    (hpos : advance h l k SingleLinkedList.before_begin = Outcome.ok pos)
    (halloc : A.pick h ≠ none) :
    ∃ h' l' it, InsertAfter A h l pos v = Outcome.ok (h', l', it) ∧
      HasSeq h' l' (S.take k ++ v :: S.drop k) ∧
      GetSize l' = GetSize l + 1 ∧
      it.deref h' = Outcome.ok v ∧
      advance h' l' (k + 1) SingleLinkedList.before_begin = Outcome.ok it := by
  obtain ⟨cells, hr, rfl⟩ := (hasSeq_iff_rep h l S).1 hS
  rw [List.length_map] at hk
  obtain ⟨q, h1, h2⟩ := rep_split hr k
  have hlen : (cells.take k).length = k := by simp [hk]
  have hadv := advance_before_begin l h1
  rw [hlen, hpos] at hadv
  cases hadv
  obtain ⟨buff, hb⟩ := Option.ne_none_iff_exists'.1 halloc
  have hsz : l.size_ = (cells.take k ++ cells.drop k).length := by
    rw [List.take_append_drop]
    exact hr.2
  obtain ⟨h', l', hins, hrep, _⟩ := InsertAfter_seg A v h1 h2 hsz hb
  refine ⟨h', l', _, hins, ?_, ?_, ?_, ?_⟩
  · exact (hasSeq_iff_rep h' l' _).2 ⟨_, hrep, by simp [List.map_take, List.map_drop]⟩
  · have e1 := hrep.2
    have e2 := hr.2
    simp only [List.length_append, List.length_cons, List.length_take, List.length_drop] at e1
    simp only [GetSize]
    omega
  · obtain ⟨m, _, hm⟩ := (seg_append h' _ _ _ _).1 hrep.1
    obtain ⟨_, nx, hc, _⟩ := hm
    simp only [BasicIterator.deref]
    rw [hc]
  · have hs2 : Seg h' l'.head_next_node ((cells.take k ++ [(buff, v)]) ++ cells.drop k) none := by
      rw [List.append_assoc]
      exact hrep.1
    obtain ⟨m, hm, _⟩ := (seg_append h' _ _ _ _).1 hs2
    have := advance_before_begin l' hm
    rw [List.length_append, hlen, List.length_singleton, lastPtr_snoc] at this
    exact this

/-- C1 at a concrete state: `insertAfter(beforeBegin(), 9)` on the list `1, 2`
gives `9, 1, 2`. -/
theorem InsertAfter_spec_witness :
    HasSeq heap12 list12 [1, 2] ∧
    ∃ h' l' it, InsertAfter (poolAllocator Nat [10, 11, 12]) heap12 list12
        SingleLinkedList.before_begin 9 = Outcome.ok (h', l', it) ∧
      HasSeq h' l' [9, 1, 2] ∧
      GetSize l' = GetSize list12 + 1 ∧
      it.deref h' = Outcome.ok 9 ∧
      advance h' l' 1 SingleLinkedList.before_begin = Outcome.ok it :=
  ⟨by decide,
   InsertAfter_spec (poolAllocator Nat [10, 11, 12]) heap12 list12 [1, 2] 0
     SingleLinkedList.before_begin 9 (by decide) (by decide) rfl (by decide)⟩

/-! ## EraseAfter -/

theorem nodup_app_ne {α : Type} {xs ys : List (Addr × α)}
    (hnd : ((xs ++ ys).map Prod.fst).Nodup) : ∀ x ∈ xs, ∀ y ∈ ys, x.1 ≠ y.1 := by
  intro x hx y hy e
  rw [List.map_append, List.nodup_append] at hnd
  exact hnd.2.2 (List.mem_map_of_mem Prod.fst hx) (e ▸ List.mem_map_of_mem Prod.fst hy)

theorem size_pred_mod {n : Nat} (h0 : 0 < n) (h1 : n < SIZE_MOD) :
    (n + (SIZE_MOD - 1)) % SIZE_MOD = n - 1 := by
  unfold SIZE_MOD at *
  omega

theorem EraseAfter_seg {α : Type} {h : Heap α} {l : SingleLinkedList}
    {pre post : List (Addr × α)} {q : Option Addr} {d : Addr × α}
    (h1 : Seg h l.head_next_node pre q) (h2 : Seg h q (d :: post) none)
    (hsz : l.size_ = (pre ++ d :: post).length) :
    ∃ h' l' nx, EraseAfter h l ⟨lastPtr pre NodePtr.head⟩
        = Outcome.ok (h', l', ⟨NodePtr.ofLink nx⟩) ∧
      Rep h' l' (pre ++ post) ∧ Seg h' l'.head_next_node pre nx ∧ Seg h' nx post none ∧
      (∀ b, b ≠ d.1 → NodePtr.cell b ≠ lastPtr pre NodePtr.head → h' b = h b) := by
  have horig : Seg h l.head_next_node (pre ++ d :: post) none :=
    (seg_append h pre (d :: post) _ _).2 ⟨q, h1, h2⟩
  have hnd := seg_nodup horig
  have hlt := rep_size_lt horig
  obtain ⟨hq, nx, hd, hpost⟩ := h2
  subst hq
  have hdp : ∀ c ∈ post, c.1 ≠ d.1 := by
    have := @nodup_app_ne α (pre ++ [d]) post (by simpa using hnd)
    intro c hc e
    exact this d (by simp) c hc e.symm
  have hpd : ∀ c ∈ pre, c.1 ≠ d.1 := by
    have := nodup_app_ne hnd
    intro c hc
    exact this c hc d (by simp)
  have hsize : (l.size_ + (SIZE_MOD - 1)) % SIZE_MOD = (pre ++ post).length := by
    rw [size_pred_mod (by rw [hsz]; simp) (by rw [hsz]; exact hlt), hsz]
    simp
  rcases List.eq_nil_or_concat pre with rfl | ⟨pre1, c, rfl⟩
  · have hq : l.head_next_node = some d.1 := h1
    refine ⟨h.free d.1, ⟨nx, (l.size_ + (SIZE_MOD - 1)) % SIZE_MOD⟩, nx, ?_, ⟨?_, hsize⟩, rfl,
      ?_, ?_⟩
    · simp [EraseAfter, lastPtr, readNext, writeNext, hq, hd]
    · exact seg_free hpost _ hdp
    · exact seg_free hpost _ hdp
    · intro b hb1 _
      simp [Heap.free, hb1]
  · rw [List.concat_eq_append] at h1 hsz horig hnd hpd hsize ⊢
    obtain ⟨hp1, nx1, hc, hnx1⟩ := (seg_snoc h pre1 c _ _).1 h1
    subst hnx1
    have hcd : c.1 ≠ d.1 := hpd c (by simp)
    have hn1 : ∀ e ∈ pre1, e.1 ≠ c.1 := by
      have := @nodup_app_ne α pre1 (c :: d :: post) (by simpa using hnd)
      intro e he
      exact this e he c (by simp)
    have hn2 : ∀ e ∈ post, e.1 ≠ c.1 := by
      have := @nodup_app_ne α (pre1 ++ [c]) (d :: post) hnd
      intro e he e1
      exact this c (by simp) e (by simp [he]) e1.symm
    have hpre' : Seg ((h.set c.1 ⟨c.2, nx⟩).free d.1) l.head_next_node (pre1 ++ [c]) nx := by
      rw [seg_snoc]
      refine ⟨seg_free (seg_set hp1 _ _ hn1) _ fun e he => hpd e (by simp [he]), nx, ?_, rfl⟩
      simp [Heap.free, Heap.set, hcd]
    have hpost' : Seg ((h.set c.1 ⟨c.2, nx⟩).free d.1) nx post none :=
      seg_free (seg_set hpost _ _ hn2) _ hdp
    refine ⟨(h.set c.1 ⟨c.2, nx⟩).free d.1, ⟨l.head_next_node, (l.size_ + (SIZE_MOD - 1)) % SIZE_MOD⟩,
      nx, ?_, ⟨?_, hsize⟩, hpre', hpost', ?_⟩
    · simp [EraseAfter, lastPtr, readNext, writeNext, hc, hd, Heap.free, Heap.set, hcd]
    · exact (seg_append _ _ _ _ _).2 ⟨nx, hpre', hpost'⟩
    · intro b hb1 hb2
      rw [lastPtr_snoc] at hb2
      have : b ≠ c.1 := fun e => hb2 (by rw [e])
      simp [Heap.free, Heap.set, hb1, this]

theorem seg_nil_iff {α : Type} {h : Heap α} {cells : List (Addr × α)} {p : Option Addr}
    (hs : Seg h p cells none) : p = none ↔ cells = [] := by
  cases cells with
  | nil => simpa using hs
  | cons c rest =>
    obtain ⟨hp, _⟩ := hs
    simp [hp]

theorem incr_lastPtr {α : Type} {h : Heap α} (l : SingleLinkedList)
    {pre : List (Addr × α)} {q : Option Addr} (hs : Seg h l.head_next_node pre q) :
    BasicIterator.incr h l ⟨lastPtr pre NodePtr.head⟩ = Outcome.ok ⟨NodePtr.ofLink q⟩ := by
  rcases List.eq_nil_or_concat pre with rfl | ⟨pre1, c, rfl⟩
  · have : l.head_next_node = q := hs
    simp [lastPtr, BasicIterator.incr, readNext, this]
  · rw [List.concat_eq_append] at hs ⊢
    obtain ⟨_, nx, hc, rfl⟩ := (seg_snoc h pre1 c _ _).1 hs
    simp [lastPtr, BasicIterator.incr, readNext, hc]

/-- C2: on a list with element sequence `S`, for the position `pos` reached from
`before_begin()` by `k < |S|` increments, `EraseAfter(pos)` returns normally, the
list then has the sequence `S` without its element of index `k` (the `(k+1)`-th
element), `GetSize()` has dropped by exactly one, and the returned iterator is
the successor of `pos` in the new list: the traversal from it visits the
elements that followed the erased one, and it is `end()` exactly when the
erased element was the last. -/
theorem EraseAfter_spec {α : Type} (h : Heap α) (l : SingleLinkedList)
    (S : List α) (k : Nat) (pos : BasicIterator)
    (hS : HasSeq h l S) (hk : k < S.length)
    (hpos : advance h l k SingleLinkedList.before_begin = Outcome.ok pos) :
    ∃ h' l' it, EraseAfter h l pos = Outcome.ok (h', l', it) ∧
      HasSeq h' l' (S.take k ++ S.drop (k + 1)) ∧
      GetSize l' + 1 = GetSize l ∧
      pos.incr h' l' = Outcome.ok it ∧
      traverse h' l' S.length it = Outcome.ok (S.drop (k + 1)) ∧
      (it = SingleLinkedList.end_ ↔ k + 1 = S.length) := by
  obtain ⟨cells, hr, rfl⟩ := (hasSeq_iff_rep h l S).1 hS
  rw [List.length_map] at hk
  obtain ⟨q, h1, h2⟩ := rep_split hr k
  have hlen : (cells.take k).length = k := by simp [Nat.le_of_lt hk]
  have hadv := advance_before_begin l h1
  rw [hlen, hpos] at hadv
  cases hadv
  rw [List.drop_eq_getElem_cons hk] at h2
  have hsz : l.size_ = (cells.take k ++ cells[k] :: cells.drop (k + 1)).length := by
    rw [← List.drop_eq_getElem_cons hk, List.take_append_drop]
    exact hr.2
  obtain ⟨h', l', nx, hers, hrep, hpre, hpost, _⟩ := EraseAfter_seg h1 h2 hsz
  refine ⟨h', l', _, hers, ?_, ?_, incr_lastPtr l' hpre, ?_, ?_⟩
  · exact (hasSeq_iff_rep h' l' _).2 ⟨_, hrep, by simp [List.map_take, List.map_drop]⟩
  · have e1 := hrep.2
    have e2 := hr.2
    simp only [List.length_append, List.length_take, List.length_drop] at e1
    simp only [GetSize]
    omega
  · have := traverse_of_seg l' hpost (cells.map Prod.snd).length (by simp)
    rw [this, List.map_drop]
  · have e := seg_nil_iff hpost
    have e2 : cells.drop (k + 1) = [] ↔ k + 1 = cells.length := by
      rw [List.drop_eq_nil_iff]
      omega
    rw [List.length_map, ← e2, ← e]
    cases nx <;> simp [NodePtr.ofLink, SingleLinkedList.end_]

/-- C2 at a concrete state: erasing after the first node of `1, 2` leaves `1`
and returns `end()`. -/
theorem EraseAfter_spec_witness :
    HasSeq heap12 list12 [1, 2] ∧
    ∃ h' l' it, EraseAfter heap12 list12 ⟨NodePtr.cell 10⟩ = Outcome.ok (h', l', it) ∧
      HasSeq h' l' [1] ∧
      GetSize l' + 1 = GetSize list12 ∧
      BasicIterator.incr h' l' ⟨NodePtr.cell 10⟩ = Outcome.ok it ∧
      traverse h' l' 2 it = Outcome.ok [] ∧
      (it = SingleLinkedList.end_ ↔ 1 + 1 = 2) :=
  ⟨by decide,
   EraseAfter_spec heap12 list12 [1, 2] 1 ⟨NodePtr.cell 10⟩ (by decide) (by decide) rfl⟩

/-! ## PushFront and PopFront -/

theorem PushFront_rep {α : Type} (A : Allocator α) {h : Heap α} {l : SingleLinkedList}
    {cells : List (Addr × α)} (x : α) {buff : Addr}
    (hr : Rep h l cells) (hb : A.pick h = some buff) :
    ∃ h' l', PushFront A h l x = Outcome.ok (h', l') ∧
      InsertAfter A h l SingleLinkedList.before_begin x
        = Outcome.ok (h', l', ⟨NodePtr.cell buff⟩) ∧
      Rep h' l' ((buff, x) :: cells) ∧ (∀ b, b ≠ buff → h' b = h b) := by
  have h1 : Seg h l.head_next_node ([] : List (Addr × α)) l.head_next_node := rfl
  obtain ⟨h', l', hins, hrep, hfr⟩ := InsertAfter_seg A x h1 hr.1 (by simpa using hr.2) hb
  have hins' : InsertAfter A h l ⟨NodePtr.head⟩ x = Outcome.ok (h', l', ⟨NodePtr.cell buff⟩) := hins
  refine ⟨h', l', ?_, hins', hrep, ?_⟩
  · simp only [PushFront, hins']
  · intro b hb1
    exact hfr b hb1 (by simp [lastPtr])

theorem PopFront_rep {α : Type} {h : Heap α} {l : SingleLinkedList}
    {cells : List (Addr × α)} {d : Addr × α} (hr : Rep h l (d :: cells)) :
    ∃ h' l' it, PopFront h l = Outcome.ok (h', l') ∧
      EraseAfter h l SingleLinkedList.before_begin = Outcome.ok (h', l', it) ∧
      Rep h' l' cells ∧ h' = h.free d.1 := by
  have h1 : Seg h l.head_next_node ([] : List (Addr × α)) l.head_next_node := rfl
  obtain ⟨h', l', nx, hers, hrep, _, _, hfr⟩ := EraseAfter_seg h1 hr.1 (by simpa using hr.2)
  have hers' : EraseAfter h l ⟨NodePtr.head⟩ = Outcome.ok (h', l', ⟨NodePtr.ofLink nx⟩) := hers
  have hhead : l.head_next_node = some d.1 := hr.1.1
  refine ⟨h', l', _, ?_, hers', hrep, ?_⟩
  · simp only [PopFront, hhead, hers']
  · simp only [EraseAfter, readNext, writeNext, hhead] at hers'
    obtain ⟨_, nx1, hd, _⟩ := hr.1
    simp only [hd, Outcome.ok.injEq, Prod.mk.injEq] at hers'
    exact hers'.1.symm

/-- C3: on a list with element sequence `S`, with a successful allocation,
`PushFront(x)` returns normally and leaves the sequence `x` followed by `S` and
the size `|S| + 1`; the state it leaves is the state left by
`InsertAfter(before_begin(), x)`. -/
theorem PushFront_spec {α : Type} (A : Allocator α) (h : Heap α) (l : SingleLinkedList)
    (S : List α) (x : α) (hS : HasSeq h l S) (halloc : A.pick h ≠ none) :
    ∃ h' l', PushFront A h l x = Outcome.ok (h', l') ∧
      HasSeq h' l' (x :: S) ∧ GetSize l' = S.length + 1 ∧
      ∃ it, InsertAfter A h l SingleLinkedList.before_begin x = Outcome.ok (h', l', it) := by
  obtain ⟨cells, hr, rfl⟩ := (hasSeq_iff_rep h l S).1 hS
  obtain ⟨buff, hb⟩ := Option.ne_none_iff_exists'.1 halloc
  obtain ⟨h', l', hpush, hins, hrep, _⟩ := PushFront_rep A x hr hb
  refine ⟨h', l', hpush, ?_, ?_, _, hins⟩
  · exact (hasSeq_iff_rep h' l' _).2 ⟨_, hrep, by simp⟩
  · simp [GetSize, hrep.2]

/-- C3 at a concrete state: `PushFront(0)` on `1, 2` gives `0, 1, 2`. -/
theorem PushFront_spec_witness :
    HasSeq heap12 list12 [1, 2] ∧
    ∃ h' l', PushFront (poolAllocator Nat [10, 11, 12]) heap12 list12 0 = Outcome.ok (h', l') ∧
      HasSeq h' l' [0, 1, 2] ∧ GetSize l' = 2 + 1 ∧
      ∃ it, InsertAfter (poolAllocator Nat [10, 11, 12]) heap12 list12
        SingleLinkedList.before_begin 0 = Outcome.ok (h', l', it) :=
  ⟨by decide,
   PushFront_spec (poolAllocator Nat [10, 11, 12]) heap12 list12 [1, 2] 0 (by decide)
     (by decide)⟩

/-- C4: on a non-empty list with element sequence `x` followed by `S`,
`PopFront()` returns normally and leaves the sequence `S` and the size `|S|`;
the state it leaves is the state left by `EraseAfter(before_begin())`. -/
theorem PopFront_spec {α : Type} (h : Heap α) (l : SingleLinkedList)
    (S : List α) (x : α) (hS : HasSeq h l (x :: S)) :
    ∃ h' l', PopFront h l = Outcome.ok (h', l') ∧
      HasSeq h' l' S ∧ GetSize l' = S.length ∧
      ∃ it, EraseAfter h l SingleLinkedList.before_begin = Outcome.ok (h', l', it) := by
  obtain ⟨cells, hr, hmap⟩ := (hasSeq_iff_rep h l (x :: S)).1 hS
  cases cells with
  | nil => simp at hmap
  | cons d cells =>
    rw [List.map_cons, List.cons.injEq] at hmap
    obtain ⟨_, rfl⟩ := hmap
    obtain ⟨h', l', it, hpop, hers, hrep, _⟩ := PopFront_rep hr
    refine ⟨h', l', hpop, ?_, ?_, it, hers⟩
    · exact (hasSeq_iff_rep h' l' _).2 ⟨_, hrep, rfl⟩
    · simp [GetSize, hrep.2]

/-- C4 at a concrete state: `PopFront()` on `1, 2` leaves `2`. -/
theorem PopFront_spec_witness :
    HasSeq heap12 list12 [1, 2] ∧
    ∃ h' l', PopFront heap12 list12 = Outcome.ok (h', l') ∧
      HasSeq h' l' [2] ∧ GetSize l' = 1 ∧
      ∃ it, EraseAfter heap12 list12 SingleLinkedList.before_begin = Outcome.ok (h', l', it) :=
  ⟨by decide, PopFront_spec heap12 list12 [2] 1 (by decide)⟩

/-! ## Construction from an initializer list -/

theorem PushFront_bad_alloc {α : Type} (A : Allocator α) (h : Heap α) (l : SingleLinkedList)
    (x : α) (hb : A.pick h = none) : PushFront A h l x = Outcome.bad_alloc (h, l) := by
  simp [PushFront, InsertAfter, hb]

theorem pushAll_rep {α : Type} (A : Allocator α) (xs : List α) {h : Heap α}
    {l : SingleLinkedList} {cells : List (Addr × α)} (hr : Rep h l cells)
    (hno : (pushAll A h l xs).isBadAlloc = false) :
    ∃ h' l' new, pushAll A h l xs = Outcome.ok (h', l') ∧ Rep h' l' (new ++ cells) ∧
      new.map Prod.snd = xs.reverse ∧ (∀ c ∈ new, h c.1 = none) ∧
      (∀ b, h b ≠ none → h' b = h b) := by
  induction xs generalizing h l cells with
  | nil => exact ⟨h, l, [], rfl, hr, rfl, by simp, fun _ _ => rfl⟩
  | cons x rest ih =>
    cases hb : A.pick h with
    | none =>
      simp [pushAll, PushFront_bad_alloc A h l x hb, Outcome.isBadAlloc] at hno
    | some buff =>
      obtain ⟨h1, l1, hpush, _, hrep, hfr⟩ := PushFront_rep A x hr hb
      have hfree : h buff = none := A.fresh h buff hb
      have hstep : pushAll A h l (x :: rest) = pushAll A h1 l1 rest := by
        simp only [pushAll, hpush]
      rw [hstep] at hno ⊢
      obtain ⟨h', l', new, hok, hrep', hmap, hnew, hfr'⟩ := ih hrep hno
      have hpres : ∀ b, h b ≠ none → h1 b ≠ none := by
        intro b hb1
        rw [hfr b (fun e => hb1 (e ▸ hfree))]
        exact hb1
      refine ⟨h', l', new ++ [(buff, x)], hok, by simpa using hrep', by simp [hmap], ?_, ?_⟩
      · intro c hc
        rcases List.mem_append.1 hc with hc | hc
        · have := hnew c hc
          by_cases e : c.1 = buff
          · rw [e]
            exact hfree
          · rw [← hfr c.1 e]
            exact this
        · simp only [List.mem_singleton] at hc
          subst hc
          exact hfree
      · intro b hb1
        rw [hfr' b (hpres b hb1), hfr b (fun e => hb1 (e ▸ hfree))]

theorem traverse_mono {α : Type} {h : Heap α} {l : SingleLinkedList} {S : List α}
    (hS : HasSeq h l S) (fuel : Nat) (hf : S.length ≤ fuel) :
    traverse h l fuel l.begin = Outcome.ok S := by
  obtain ⟨cells, hr, rfl⟩ := (hasSeq_iff_rep h l S).1 hS
  exact traverse_of_seg l hr.1 fuel (by simpa using hf)

/-- C5: for every finite sequence `S`, when no allocation fails, the constructor
from the initializer sequence `S` returns normally with `GetSize() = |S|`, and
the traversal from `begin()` with `++` up to `end()` visits exactly `S`, in
order (for every step bound of at least `|S|`). -/
theorem fromInitializerList_spec {α : Type} (A : Allocator α) (h : Heap α) (S : List α)
    (hno : (fromInitializerList A h S).isBadAlloc = false) :
    ∃ h' l', fromInitializerList A h S = Outcome.ok (h', l') ∧
      GetSize l' = S.length ∧
      ∀ fuel, S.length ≤ fuel → traverse h' l' fuel l'.begin = Outcome.ok S := by
  have hr : Rep h SingleLinkedList.empty ([] : List (Addr × α)) := ⟨rfl, rfl⟩
  obtain ⟨h', l', new, hok, hrep, hmap, _, _⟩ := pushAll_rep A S.reverse hr hno
  rw [List.append_nil] at hrep
  rw [List.reverse_reverse] at hmap
  have hS : HasSeq h' l' S := (hasSeq_iff_rep h' l' S).2 ⟨new, hrep, hmap⟩
  exact ⟨h', l', hok, hS.1, fun fuel hf => traverse_mono hS fuel hf⟩

/-- C5 at a concrete input: building from `3, 1, 2` gives size 3 and the
traversal `3, 1, 2`. -/
theorem fromInitializerList_spec_witness :
    (fromInitializerList (poolAllocator Nat [12, 13, 14]) heap12 [3, 1, 2]).isBadAlloc
      = false ∧
    ∃ h' l', fromInitializerList (poolAllocator Nat [12, 13, 14]) heap12 [3, 1, 2]
        = Outcome.ok (h', l') ∧
      GetSize l' = 3 ∧
      ∀ fuel, 3 ≤ fuel → traverse h' l' fuel l'.begin = Outcome.ok [3, 1, 2] :=
  ⟨by decide,
   fromInitializerList_spec (poolAllocator Nat [12, 13, 14]) heap12 [3, 1, 2] (by decide)⟩

/-! ## Clear -/

theorem ClearLoop_rep {α : Type} {cells : List (Addr × α)} {h : Heap α} {l : SingleLinkedList}
    (hr : Rep h l cells) (fuel : Nat) (hf : cells.length ≤ fuel) :
    ∃ h', ClearLoop fuel h l = Outcome.ok (h', SingleLinkedList.empty) ∧
      (∀ b, (∀ c ∈ cells, c.1 ≠ b) → h' b = h b) ∧ (∀ c ∈ cells, h' c.1 = none) := by
  induction cells generalizing h l fuel with
  | nil =>
    have h0 : l.size_ = 0 := hr.2
    have h1 : l.head_next_node = none := hr.1
    refine ⟨h, ?_, fun _ _ => rfl, by simp⟩
    unfold ClearLoop
    simp [IsEmpty, h0, SingleLinkedList.empty, h1]
  | cons d rest ih =>
    have h0 : l.size_ = rest.length + 1 := hr.2
    cases fuel with
    | zero => simp at hf
    | succ n =>
      obtain ⟨h1, l1, _, hpop, _, hrep, hh1⟩ := PopFront_rep hr
      obtain ⟨h', hcl, hfr, hnone⟩ := ih hrep n (by simpa using hf)
      refine ⟨h', ?_, ?_, ?_⟩
      · rw [ClearLoop]
        simp only [IsEmpty, h0, hpop]
        simpa using hcl
      · intro b hb
        rw [hfr b fun c hc => hb c (List.mem_cons_of_mem _ hc), hh1]
        have : b ≠ d.1 := fun e => hb d (List.mem_cons_self _ _) e.symm
        simp [Heap.free, this]
      · intro c hc
        rcases List.mem_cons.1 hc with rfl | hc
        · by_cases hm : ∃ e ∈ rest, e.1 = c.1
          · obtain ⟨e, he, hec⟩ := hm
            rw [← hec]
            exact hnone e he
          · rw [hfr c.1 fun e he hec => hm ⟨e, he, hec⟩, hh1]
            simp [Heap.free]
        · exact hnone c hc

theorem Clear_rep {α : Type} {cells : List (Addr × α)} {h : Heap α} {l : SingleLinkedList}
    (hr : Rep h l cells) :
    ∃ h', Clear h l = Outcome.ok (h', SingleLinkedList.empty) ∧
      (∀ b, (∀ c ∈ cells, c.1 ≠ b) → h' b = h b) ∧ (∀ c ∈ cells, h' c.1 = none) :=
  ClearLoop_rep hr l.size_ (by rw [hr.2])

theorem rep_frame {α : Type} {h h1 : Heap α} {l : SingleLinkedList} {cells : List (Addr × α)}
    (hr : Rep h l cells) (hf : ∀ c ∈ cells, h1 c.1 = h c.1) : Rep h1 l cells :=
  ⟨seg_frame hr.1 hf, hr.2⟩

theorem rep_empty {α : Type} (h : Heap α) : Rep h SingleLinkedList.empty ([] : List (Addr × α)) :=
  ⟨rfl, rfl⟩

/-! ## CopyList -/

theorem lastPtr_ne_null {α : Type} (pre : List (Addr × α)) :
    lastPtr pre NodePtr.head ≠ NodePtr.null := by
  unfold lastPtr
  cases pre.getLast? <;> simp

theorem InsertAfter_bad_alloc {α : Type} (A : Allocator α) (h : Heap α) (l : SingleLinkedList)
    (pos : BasicIterator) (v : α) (hp : pos.node_ ≠ NodePtr.null) (hb : A.pick h = none) :
    InsertAfter A h l pos v = Outcome.bad_alloc (h, l) := by
  unfold InsertAfter
  cases hn : pos.node_ with
  | null => exact absurd hn hp
  | head => simp [hb]
  | cell a => simp [hb]

theorem copyLoop_rep {α : Type} (A : Allocator α) (input : SingleLinkedList) {h0 : Heap α}
    {rest : List (Addr × α)} {p : Option Addr} (hin : Seg h0 p rest none)
    (fuel : Nat) (hf : rest.length ≤ fuel) {h : Heap α} {buff : SingleLinkedList}
    {bcells : List (Addr × α)} (hF1 : ∀ b, h0 b ≠ none → h b = h0 b)
    (hrb : Rep h buff bcells) (hF2 : ∀ c ∈ bcells, h0 c.1 = none) :
    (∃ h' buff' new, copyLoop A input fuel h buff ⟨lastPtr bcells NodePtr.head⟩
          ⟨NodePtr.ofLink p⟩ = Outcome.ok (h', buff') ∧
        Rep h' buff' (bcells ++ new) ∧ new.map Prod.snd = rest.map Prod.snd ∧
        (∀ b, h0 b ≠ none → h' b = h0 b) ∧ (∀ c ∈ new, h0 c.1 = none)) ∨
    (∃ h' buff' bc, copyLoop A input fuel h buff ⟨lastPtr bcells NodePtr.head⟩
          ⟨NodePtr.ofLink p⟩ = Outcome.bad_alloc (h', buff') ∧
        Rep h' buff' bc ∧ (∀ b, h0 b ≠ none → h' b = h0 b) ∧ (∀ c ∈ bc, h0 c.1 = none)) := by
  induction rest generalizing p fuel h buff bcells with
  | nil =>
    have : p = none := hin
    subst this
    left
    refine ⟨h, buff, [], ?_, by simpa using hrb, rfl, hF1, by simp⟩
    unfold copyLoop
    simp [NodePtr.ofLink, SingleLinkedList.end_]
  | cons d rest ih =>
    obtain ⟨hp, nx, hd, hrest⟩ := hin
    subst hp
    cases fuel with
    | zero => simp at hf
    | succ n =>
      have hd0 : h0 d.1 ≠ none := by simp [hd]
      have hdh : h d.1 = some ⟨d.2, nx⟩ := by rw [hF1 d.1 hd0, hd]
      have hval : nodeValue h ⟨NodePtr.cell d.1⟩ = some d.2 := by simp [nodeValue, hdh]
      have hne : (⟨NodePtr.cell d.1⟩ : BasicIterator) ≠ SingleLinkedList.end_ := by
        simp [SingleLinkedList.end_]
      cases hb : A.pick h with
      | none =>
        right
        refine ⟨h, buff, bcells, ?_, hrb, hF1, hF2⟩
        rw [NodePtr.ofLink, copyLoop]
        simp only [hne, if_false, hval,
          InsertAfter_bad_alloc A h buff ⟨lastPtr bcells NodePtr.head⟩ d.2
            (lastPtr_ne_null bcells) hb]
      | some b =>
        have hfree : h b = none := A.fresh h b hb
        have hb0 : h0 b = none := by
          by_contra hc
          rw [hF1 b hc] at hfree
          exact hc hfree
        have hnil : Seg h (none : Option Addr) ([] : List (Addr × α)) none := rfl
        obtain ⟨h1, buff1, hins, hrep1, hfr⟩ :=
          InsertAfter_seg A d.2 hrb.1 hnil (by simpa using hrb.2) hb
        have hF1' : ∀ x, h0 x ≠ none → h1 x = h0 x := by
          intro x hx
          rw [← hF1 x hx]
          apply hfr x (fun e => hx (e ▸ hb0))
          intro e
          unfold lastPtr at e
          cases hl : bcells.getLast? with
          | none => simp [hl] at e
          | some c =>
            simp only [hl, NodePtr.cell.injEq] at e
            exact hx (e ▸ hF2 c (List.mem_of_getLast?_eq_some hl))
        have hF2' : ∀ c ∈ bcells ++ [(b, d.2)], h0 c.1 = none := by
          intro c hc
          rcases List.mem_append.1 hc with hc | hc
          · exact hF2 c hc
          · simp only [List.mem_singleton] at hc
            subst hc
            exact hb0
        have hincr : BasicIterator.incr h1 input ⟨NodePtr.cell d.1⟩
            = Outcome.ok ⟨NodePtr.ofLink nx⟩ := by
          simp [BasicIterator.incr, readNext, hF1' d.1 hd0, hd]
        have hstep : copyLoop A input (n + 1) h buff ⟨lastPtr bcells NodePtr.head⟩
            ⟨NodePtr.ofLink (some d.1)⟩ =
            copyLoop A input n h1 buff1 ⟨lastPtr (bcells ++ [(b, d.2)]) NodePtr.head⟩
              ⟨NodePtr.ofLink nx⟩ := by
          rw [NodePtr.ofLink, copyLoop]
          simp only [hne, if_false, hval, hins, hincr, lastPtr_snoc]
        rw [hstep]
        rcases ih hrest n (by simpa using hf) hF1' hrep1 hF2' with
          ⟨h', buff', new, hok, hrep', hmap, hF1'', hnew⟩ | ⟨h', buff', bc, hbad, hrep', hF1'', hbc⟩
        · left
          refine ⟨h', buff', (b, d.2) :: new, hok, by simpa using hrep', by simp [hmap], hF1'', ?_⟩
          intro c hc
          rcases List.mem_cons.1 hc with rfl | hc
          · exact hb0
          · exact hnew c hc
        · right
          exact ⟨h', buff', bc, hbad, hrep', hF1'', hbc⟩

theorem fresh_ne_alloc {α : Type} {h : Heap α} {xs ys : List (Addr × α)} {p q : Option Addr}
    (hx : ∀ c ∈ xs, h c.1 = none) (hy : Seg h p ys q) : ∀ c ∈ xs, ∀ d ∈ ys, c.1 ≠ d.1 := by
  intro c hc d hd e
  exact seg_alloc hy d hd (e ▸ hx c hc)

theorem CopyList_rep {α : Type} (A : Allocator α) (fuel : Nat) {h : Heap α}
    {this input : SingleLinkedList} {cT cL : List (Addr × α)}
    (hT : Rep h this cT) (hL : Rep h input cL) (hdis : ∀ c ∈ cT, ∀ d ∈ cL, c.1 ≠ d.1)
    (hf : cL.length ≤ fuel) :
    (∃ h' this' new, CopyList A fuel h this input = Outcome.ok (h', this') ∧
        Rep h' this' new ∧ new.map Prod.snd = cL.map Prod.snd ∧ Rep h' input cL ∧
        (∀ c ∈ new, h c.1 = none) ∧
        (∀ b, h b ≠ none → (∀ c ∈ cT, c.1 ≠ b) → h' b = h b)) ∨
    (∃ h', CopyList A fuel h this input = Outcome.bad_alloc (h', this) ∧
        Rep h' this cT ∧ Rep h' input cL ∧ (∀ b, h b ≠ none → h' b = h b)) := by
  by_cases hemp : IsEmpty input = true
  · left
    have hsz : input.size_ = 0 := by simpa [IsEmpty] using hemp
    have hnil : cL = [] := by
      have := hL.2
      rw [hsz] at this
      exact List.length_eq_zero.1 this.symm
    subst hnil
    obtain ⟨h', hcl, hfr, _⟩ := Clear_rep hT
    refine ⟨h', SingleLinkedList.empty, [], ?_, rep_empty h', rfl, ⟨hL.1, hL.2⟩, by simp, ?_⟩
    · simp only [CopyList, hemp, if_true, hcl]
    · intro b _ hb
      exact hfr b hb
  · have hF1 : ∀ b, h b ≠ none → h b = h b := fun _ _ => rfl
    have hloop := copyLoop_rep A input hL.1 fuel hf hF1 (rep_empty h)
      (by simp)
    have hbegin : (⟨NodePtr.ofLink input.head_next_node⟩ : BasicIterator) = input.begin := rfl
    have hlp : lastPtr ([] : List (Addr × α)) NodePtr.head = NodePtr.head := rfl
    rw [hbegin, hlp] at hloop
    rcases hloop with ⟨h1, buff1, new, hok, hrep1, hmap, hF1, hnew⟩ | ⟨h1, buff1, bc, hbad, hrep1, hF1, hbc⟩
    · left
      rw [List.nil_append] at hrep1
      have hT1 : Rep h1 this cT := rep_frame hT fun c hc => hF1 c.1 (seg_alloc hT.1 c hc)
      have hL1 : Rep h1 input cL := rep_frame hL fun c hc => hF1 c.1 (seg_alloc hL.1 c hc)
      obtain ⟨h2, hcl, hfr, _⟩ := Clear_rep hT1
      have hnewT : ∀ c ∈ new, ∀ d ∈ cT, c.1 ≠ d.1 := fresh_ne_alloc hnew hT.1
      have hlen : new.length = cL.length := by
        have := congrArg List.length hmap
        simpa using this
      refine ⟨h2, ⟨buff1.head_next_node, input.size_⟩, new, ?_, ⟨?_, ?_⟩, hmap, ?_, hnew, ?_⟩
      · have hcl' : Clear h1 (swap this { buff1 with size_ := GetSize input }).2
            = Outcome.ok (h2, SingleLinkedList.empty) := hcl
        simp only [CopyList, hemp, hok, hcl']
        rfl
      · exact seg_frame hrep1.1 fun c hc => hfr c.1 fun d hd e => hnewT c hc d hd e.symm
      · show input.size_ = new.length
        rw [hlen]
        exact hL.2
      · exact rep_frame hL1 fun c hc => hfr c.1 fun d hd => hdis d hd c hc
      · intro b hb hbT
        rw [hfr b hbT, hF1 b hb]
    · right
      obtain ⟨h2, hcl, hfr, _⟩ := Clear_rep hrep1
      have hpres : ∀ b, h b ≠ none → h2 b = h b := by
        intro b hb
        rw [hfr b fun c hc e => hb (e ▸ hbc c hc), hF1 b hb]
      refine ⟨h2, ?_, ?_, ?_, hpres⟩
      · simp only [CopyList, hemp, hbad, hcl]
        rfl
      · exact rep_frame hT fun c hc => hpres c.1 (seg_alloc hT.1 c hc)
      · exact rep_frame hL fun c hc => hpres c.1 (seg_alloc hL.1 c hc)

/-! ## Mutations of one list leave the nodes of another list alone -/

theorem chainAddrs_seg {α : Type} {h : Heap α} {cells : List (Addr × α)} {p : Option Addr}
    (hs : Seg h p cells none) : chainAddrs h cells.length p = cells.map Prod.fst := by
  induction cells generalizing p with
  | nil =>
    have : p = none := hs
    subst this
    rfl
  | cons c rest ih =>
    obtain ⟨hp, nx, hc, hrest⟩ := hs
    subst hp
    simp only [List.length_cons, chainAddrs, hc, List.map_cons, ih hrest]

theorem nodes_rep {α : Type} {h : Heap α} {l : SingleLinkedList} {cells : List (Addr × α)}
    (hr : Rep h l cells) : nodes h l = cells.map Prod.fst := by
  unfold nodes
  rw [hr.2]
  exact chainAddrs_seg hr.1

theorem advance_null {α : Type} (h : Heap α) (l : SingleLinkedList) (k : Nat)
    (pos : BasicIterator) (ha : advance h l k ⟨NodePtr.null⟩ = Outcome.ok pos) :
    pos = ⟨NodePtr.null⟩ := by
  cases k with
  | zero =>
    simp only [advance, Outcome.ok.injEq] at ha
    exact ha.symm
  | succ k => simp [advance, BasicIterator.incr] at ha

theorem advance_add {α : Type} (h : Heap α) (l : SingleLinkedList) (a b : Nat)
    (it it1 : BasicIterator) (ha : advance h l a it = Outcome.ok it1) :
    advance h l (a + b) it = advance h l b it1 := by
  induction a generalizing it with
  | zero =>
    simp only [advance, Outcome.ok.injEq] at ha
    simp [ha]
  | succ a ih =>
    rw [Nat.add_right_comm, advance]
    rw [advance] at ha
    cases hi : it.incr h l with
    | ok it2 =>
      rw [hi] at ha
      simp only at ha ⊢
      exact ih it2 ha
    | bad_alloc e => exact nomatch e
    | assert_fail => simp [hi] at ha
    | undefined => simp [hi] at ha
    | out_of_fuel => simp [hi] at ha

theorem advance_pos {α : Type} {h : Heap α} {l : SingleLinkedList} {cells : List (Addr × α)}
    (hr : Rep h l cells) (k : Nat) (pos : BasicIterator)
    (ha : advance h l k SingleLinkedList.before_begin = Outcome.ok pos) :
    (k ≤ cells.length ∧ pos = ⟨lastPtr (cells.take k) NodePtr.head⟩) ∨ pos = ⟨NodePtr.null⟩ := by
  by_cases hk : k ≤ cells.length
  · left
    obtain ⟨q, h1, _⟩ := rep_split hr k
    have := advance_before_begin l h1
    rw [List.length_take, Nat.min_eq_left hk, ha] at this
    exact ⟨hk, Outcome.ok.inj this⟩
  · right
    have h1 : advance h l (cells.length + 1) SingleLinkedList.before_begin
        = Outcome.ok ⟨NodePtr.null⟩ := by
      rw [SingleLinkedList.before_begin, advance_head, SingleLinkedList.begin, advance_seg l hr.1]
      rfl
    have hk2 : k = (cells.length + 1) + (k - (cells.length + 1)) := by omega
    rw [hk2, advance_add h l _ _ _ _ h1] at ha
    exact advance_null h l _ pos ha

theorem readNext_lastPtr {α : Type} {h : Heap α} (l : SingleLinkedList)
    {pre : List (Addr × α)} {q : Option Addr} (hs : Seg h l.head_next_node pre q) :
    readNext h l (lastPtr pre NodePtr.head) = some q := by
  rcases List.eq_nil_or_concat pre with rfl | ⟨pre1, c, rfl⟩
  · have : l.head_next_node = q := hs
    simp [lastPtr, readNext, this]
  · rw [List.concat_eq_append] at hs ⊢
    obtain ⟨_, nx, hc, rfl⟩ := (seg_snoc h pre1 c _ _).1 hs
    simp [lastPtr, readNext, hc]

theorem lastPtr_mem {α : Type} {pre : List (Addr × α)} {b : Addr}
    (hb : ∀ c ∈ pre, c.1 ≠ b) : NodePtr.cell b ≠ lastPtr pre NodePtr.head := by
  intro e
  unfold lastPtr at e
  cases hl : pre.getLast? with
  | none => simp [hl] at e
  | some c =>
    simp only [hl, NodePtr.cell.injEq] at e
    exact hb c (List.mem_of_getLast?_eq_some hl) e.symm

theorem InsertAfter_frame {α : Type} (A : Allocator α) {h : Heap α} {l : SingleLinkedList}
    {cells : List (Addr × α)} (hr : Rep h l cells) (k : Nat) (x : α) :
    InsertAfter A h l ⟨lastPtr (cells.take k) NodePtr.head⟩ x = Outcome.bad_alloc (h, l) ∨
    ∃ h' l' it, InsertAfter A h l ⟨lastPtr (cells.take k) NodePtr.head⟩ x
        = Outcome.ok (h', l', it) ∧
      ∀ b, h b ≠ none → (∀ c ∈ cells, c.1 ≠ b) → h' b = h b := by
  cases hb : A.pick h with
  | none => exact Or.inl (InsertAfter_bad_alloc A h l _ x (lastPtr_ne_null _) hb)
  | some buff =>
    right
    obtain ⟨q, h1, h2⟩ := rep_split hr k
    have hsz : l.size_ = (cells.take k ++ cells.drop k).length := by
      rw [List.take_append_drop]
      exact hr.2
    obtain ⟨h', l', hins, _, hfr⟩ := InsertAfter_seg A x h1 h2 hsz hb
    refine ⟨h', l', _, hins, ?_⟩
    intro b hb1 hb2
    have hfree := A.fresh h buff hb
    exact hfr b (fun e => hb1 (e ▸ hfree))
      (lastPtr_mem fun c hc => hb2 c (List.mem_of_mem_take hc))

theorem EraseAfter_frame {α : Type} {h : Heap α} {l : SingleLinkedList}
    {cells : List (Addr × α)} (hr : Rep h l cells) (k : Nat) (hk : k ≤ cells.length)
    {h' : Heap α} {l' : SingleLinkedList} {it : BasicIterator}
    (he : EraseAfter h l ⟨lastPtr (cells.take k) NodePtr.head⟩ = Outcome.ok (h', l', it)) :
    ∀ b, (∀ c ∈ cells, c.1 ≠ b) → h' b = h b := by
  obtain ⟨q, h1, h2⟩ := rep_split hr k
  by_cases hk2 : k < cells.length
  · rw [List.drop_eq_getElem_cons hk2] at h2
    have hsz : l.size_ = (cells.take k ++ cells[k] :: cells.drop (k + 1)).length := by
      rw [← List.drop_eq_getElem_cons hk2, List.take_append_drop]
      exact hr.2
    obtain ⟨h1', l1', nx, hers, _, _, _, hfr⟩ := EraseAfter_seg h1 h2 hsz
    rw [hers] at he
    simp only [Outcome.ok.injEq, Prod.mk.injEq] at he
    rw [← he.1]
    intro b hb
    exact hfr b (fun e => hb _ (List.getElem_mem _) e.symm)
      (lastPtr_mem fun c hc => hb c (List.mem_of_mem_take hc))
  · have hnil : cells.drop k = [] := List.drop_eq_nil_iff.2 (by omega)
    rw [hnil] at h2
    have hq : q = none := h2
    subst hq
    have hrd := readNext_lastPtr l h1
    have hnn := lastPtr_ne_null (cells.take k)
    unfold EraseAfter at he
    cases hp : lastPtr (cells.take k) NodePtr.head with
    | null => exact absurd hp hnn
    | head =>
      rw [hp] at hrd
      simp [hp, hrd] at he
    | cell a =>
      rw [hp] at hrd
      simp [hp, hrd] at he

theorem mutation_frame {α : Type} (A : Allocator α) {h : Heap α} {l : SingleLinkedList}
    {cells : List (Addr × α)} (hr : Rep h l cells) (m : Mutation α)
    (s : Heap α × SingleLinkedList) (hm : (applyMutation A h l m).after = some s) :
    ∀ b, h b ≠ none → (∀ c ∈ cells, c.1 ≠ b) → s.1 b = h b := by
  intro b hb hbc
  cases m with
  | pushFront x =>
    cases hp : A.pick h with
    | none =>
      simp only [applyMutation, PushFront_bad_alloc A h l x hp, Outcome.after,
        Option.some.injEq] at hm
      rw [← hm]
    | some buff =>
      obtain ⟨h', l', hpush, _, _, hfr⟩ := PushFront_rep A x hr hp
      simp only [applyMutation, hpush, Outcome.after, Option.some.injEq] at hm
      rw [← hm]
      exact hfr b fun e => hb (e ▸ A.fresh h buff hp)
  | popFront =>
    cases cells with
    | nil =>
      have : l.head_next_node = none := hr.1
      simp [applyMutation, PopFront, this, Outcome.noexcept, Outcome.after] at hm
    | cons d rest =>
      obtain ⟨h', l', _, hpop, _, _, hh⟩ := PopFront_rep hr
      simp only [applyMutation, hpop, Outcome.noexcept, Outcome.after, Option.some.injEq] at hm
      rw [← hm, hh]
      have : b ≠ d.1 := fun e => hbc d (List.mem_cons_self _ _) e.symm
      simp [Heap.free, this]
  | insertAfter k x =>
    simp only [applyMutation] at hm
    cases ha : advance h l k SingleLinkedList.before_begin with
    | ok pos =>
      rw [ha] at hm
      simp only at hm
      rcases advance_pos hr k pos ha with ⟨hk, rfl⟩ | rfl
      · rcases InsertAfter_frame A hr k x with hbad | ⟨h', l', it, hok, hfr⟩
        · rw [hbad] at hm
          simp only [Outcome.after, Option.some.injEq] at hm
          rw [← hm]
        · rw [hok] at hm
          simp only [Outcome.after, Option.some.injEq] at hm
          rw [← hm]
          exact hfr b hb hbc
      · simp [InsertAfter, Outcome.after] at hm
    | bad_alloc e => exact nomatch e
    | assert_fail => simp [ha, Outcome.after] at hm
    | undefined => simp [ha, Outcome.after] at hm
    | out_of_fuel => simp [ha, Outcome.after] at hm
  | eraseAfter k =>
    simp only [applyMutation] at hm
    cases ha : advance h l k SingleLinkedList.before_begin with
    | ok pos =>
      rw [ha] at hm
      simp only at hm
      rcases advance_pos hr k pos ha with ⟨hk, rfl⟩ | rfl
      · cases he : EraseAfter h l ⟨lastPtr (cells.take k) NodePtr.head⟩ with
        | ok r =>
          obtain ⟨h', l', it⟩ := r
          rw [he] at hm
          simp only [Outcome.after, Option.some.injEq] at hm
          rw [← hm]
          exact EraseAfter_frame hr k hk he b hbc
        | bad_alloc e => exact nomatch e
        | assert_fail => simp [he, Outcome.after] at hm
        | undefined => simp [he, Outcome.after] at hm
        | out_of_fuel => simp [he, Outcome.after] at hm
      · simp [EraseAfter, Outcome.after] at hm
    | bad_alloc e => exact nomatch e
    | assert_fail => simp [ha, Outcome.after] at hm
    | undefined => simp [ha, Outcome.after] at hm
    | out_of_fuel => simp [ha, Outcome.after] at hm
  | clear =>
    obtain ⟨h', hcl, hfr, _⟩ := Clear_rep hr
    simp only [applyMutation, hcl, Outcome.noexcept, Outcome.after, Option.some.injEq] at hm
    rw [← hm]
    exact hfr b hbc

/-! ## Comparison operators -/

theorem deref_cell {α : Type} {h : Heap α} {a : Addr} {n : Node α} (ha : h a = some n) :
    BasicIterator.deref h ⟨NodePtr.cell a⟩ = Outcome.ok n.value := by
  simp [BasicIterator.deref, ha]

theorem incr_cell {α : Type} {h : Heap α} (l : SingleLinkedList) {a : Addr} {n : Node α}
    (ha : h a = some n) :
    BasicIterator.incr h l ⟨NodePtr.cell a⟩ = Outcome.ok ⟨NodePtr.ofLink n.next_node⟩ := by
  simp [BasicIterator.incr, readNext, ha]

theorem std_equal_seg {α : Type} [BEq α] {h : Heap α} (l1 l2 : SingleLinkedList)
    {xs ys : List (Addr × α)} {p q : Option Addr}
    (hx : Seg h p xs none) (hy : Seg h q ys none) (fuel : Nat)
    (hf : min xs.length ys.length ≤ fuel) :
    std_equal h l1 l2 fuel ⟨NodePtr.ofLink p⟩ ⟨NodePtr.ofLink q⟩
      = Outcome.ok (seqEq (xs.map Prod.snd) (ys.map Prod.snd)) := by
  induction xs generalizing p q ys fuel with
  | nil =>
    have : p = none := hx
    subst this
    unfold std_equal
    cases ys with
    | nil =>
      have : q = none := hy
      subst this
      simp [NodePtr.ofLink, SingleLinkedList.end_, seqEq]
    | cons d ys =>
      obtain ⟨hq, _⟩ := hy
      subst hq
      simp [NodePtr.ofLink, SingleLinkedList.end_, seqEq]
  | cons c xs ih =>
    obtain ⟨hp, nx, hc, hxr⟩ := hx
    subst hp
    cases ys with
    | nil =>
      have : q = none := hy
      subst this
      unfold std_equal
      simp [NodePtr.ofLink, SingleLinkedList.end_, seqEq]
    | cons d ys =>
      obtain ⟨hq, ny, hd, hyr⟩ := hy
      subst hq
      cases fuel with
      | zero => simp at hf
      | succ n =>
        have hf1 : min xs.length ys.length ≤ n := by
          simp only [List.length_cons] at hf
          omega
        rw [NodePtr.ofLink, NodePtr.ofLink, std_equal]
        simp only [SingleLinkedList.end_, ne_eq, BasicIterator.mk.injEq, reduceCtorEq,
          not_false_eq_true, and_self, if_true, deref_cell hc, deref_cell hd, Outcome.bind,
          incr_cell l1 hc, incr_cell l2 hd, ih hxr hyr n hf1, List.map_cons, seqEq]
        cases c.2 == d.2 <;> simp

theorem std_lexicographical_compare_seg {α : Type} [LT α]
    [DecidableRel (fun a b : α => a < b)] {h : Heap α} (l1 l2 : SingleLinkedList)
    {xs ys : List (Addr × α)} {p q : Option Addr}
    (hx : Seg h p xs none) (hy : Seg h q ys none) (fuel : Nat)
    (hf : min xs.length ys.length ≤ fuel) :
    std_lexicographical_compare h l1 l2 fuel ⟨NodePtr.ofLink p⟩ ⟨NodePtr.ofLink q⟩
      = Outcome.ok (seqLt (xs.map Prod.snd) (ys.map Prod.snd)) := by
  induction xs generalizing p q ys fuel with
  | nil =>
    have : p = none := hx
    subst this
    unfold std_lexicographical_compare
    cases ys with
    | nil =>
      have : q = none := hy
      subst this
      simp [NodePtr.ofLink, SingleLinkedList.end_, seqLt]
    | cons d ys =>
      obtain ⟨hq, _⟩ := hy
      subst hq
      simp [NodePtr.ofLink, SingleLinkedList.end_, seqLt]
  | cons c xs ih =>
    obtain ⟨hp, nx, hc, hxr⟩ := hx
    subst hp
    cases ys with
    | nil =>
      have : q = none := hy
      subst this
      unfold std_lexicographical_compare
      simp [NodePtr.ofLink, SingleLinkedList.end_, seqLt]
    | cons d ys =>
      obtain ⟨hq, ny, hd, hyr⟩ := hy
      subst hq
      cases fuel with
      | zero => simp at hf
      | succ n =>
        have hf1 : min xs.length ys.length ≤ n := by
          simp only [List.length_cons] at hf
          omega
        rw [NodePtr.ofLink, NodePtr.ofLink, std_lexicographical_compare]
        simp only [SingleLinkedList.end_, ne_eq, BasicIterator.mk.injEq, reduceCtorEq,
          not_false_eq_true, and_self, if_true, deref_cell hc, deref_cell hd, Outcome.bind,
          incr_cell l1 hc, incr_cell l2 hd, ih hxr hyr n hf1, List.map_cons, seqLt]
        by_cases h1 : c.2 < d.2
        · simp [h1]
        · by_cases h2 : d.2 < c.2
          · simp [h1, h2]
          · simp [h1, h2]

theorem seqEq_length {α : Type} [BEq α] {A B : List α} (he : seqEq A B = true) :
    A.length = B.length := by
  induction A generalizing B with
  | nil =>
    cases B with
    | nil => rfl
    | cons b bs => simp [seqEq] at he
  | cons a as ih =>
    cases B with
    | nil => simp [seqEq] at he
    | cons b bs =>
      simp only [seqEq, Bool.and_eq_true] at he
      simp [ih he.2]

theorem seqEq_iff {α : Type} [BEq α] (A B : List α) :
    seqEq A B = true ↔
      A.length = B.length ∧
        ∀ i, ∀ (h1 : i < A.length) (h2 : i < B.length), (A[i] == B[i]) = true := by
  induction A generalizing B with
  | nil =>
    cases B with
    | nil => simp [seqEq]
    | cons b bs => simp [seqEq]
  | cons a as ih =>
    cases B with
    | nil => simp [seqEq]
    | cons b bs =>
      simp only [seqEq, Bool.and_eq_true, ih, List.length_cons, Nat.add_right_cancel_iff]
      constructor
      · rintro ⟨hab, hlen, hall⟩
        refine ⟨hlen, ?_⟩
        intro i h1 h2
        cases i with
        | zero => simpa using hab
        | succ i =>
          simp only [List.getElem_cons_succ]
          exact hall i (by omega) (by omega)
      · rintro ⟨hlen, hall⟩
        refine ⟨by simpa using hall 0 (by omega) (by omega), hlen, ?_⟩
        intro i h1 h2
        have := hall (i + 1) (by omega) (by omega)
        simpa using this

theorem operator_eq_rep {α : Type} [BEq α] {h : Heap α} {A B : SingleLinkedList}
    {cA cB : List (Addr × α)} (hA : Rep h A cA) (hB : Rep h B cB) (fuel : Nat)
    (hf : min cA.length cB.length ≤ fuel) :
    operator_eq fuel h A B = Outcome.ok (seqEq (cA.map Prod.snd) (cB.map Prod.snd)) := by
  unfold operator_eq
  by_cases hsz : GetSize A = GetSize B
  · rw [if_pos hsz]
    exact std_equal_seg A B hA.1 hB.1 fuel hf
  · rw [if_neg hsz]
    have hne : cA.length ≠ cB.length := by
      simpa [GetSize, hA.2, hB.2] using hsz
    cases hs : seqEq (cA.map Prod.snd) (cB.map Prod.snd) with
    | false => rfl
    | true =>
      have := seqEq_length hs
      simp only [List.length_map] at this
      exact absurd this hne

theorem operator_lt_rep {α : Type} [LT α] [DecidableRel (fun a b : α => a < b)] {h : Heap α}
    {A B : SingleLinkedList} {cA cB : List (Addr × α)} (hA : Rep h A cA) (hB : Rep h B cB)
    (fuel : Nat) (hf : min cA.length cB.length ≤ fuel) :
    operator_lt fuel h A B = Outcome.ok (seqLt (cA.map Prod.snd) (cB.map Prod.snd)) :=
  std_lexicographical_compare_seg A B hA.1 hB.1 fuel hf

/-- C7: for two lists `A` and `B` with element sequences `SA` and `SB`,
`A == B` returns normally, and it returns `true` exactly when the sizes are
equal and the elements at every index compare equal. -/
theorem operator_eq_spec {α : Type} [BEq α] (h : Heap α) (A B : SingleLinkedList)
    (SA SB : List α) (fuel : Nat) (hA : HasSeq h A SA) (hB : HasSeq h B SB)
    (hf : min SA.length SB.length ≤ fuel) :
    ∃ r, operator_eq fuel h A B = Outcome.ok r ∧
      (r = true ↔ GetSize A = GetSize B ∧
        ∀ i, ∀ (h1 : i < SA.length) (h2 : i < SB.length), (SA[i] == SB[i]) = true) := by
  obtain ⟨cA, hrA, rfl⟩ := (hasSeq_iff_rep h A SA).1 hA
  obtain ⟨cB, hrB, rfl⟩ := (hasSeq_iff_rep h B SB).1 hB
  refine ⟨_, operator_eq_rep hrA hrB fuel (by simpa using hf), ?_⟩
  rw [seqEq_iff, hA.1, hB.1]

/-- C7 at a concrete state: `1, 2, 3` and `1, 2, 3, 4` are not equal. -/
theorem operator_eq_spec_witness :
    (HasSeq heapCmp list123 [1, 2, 3] ∧ HasSeq heapCmp list1234 [1, 2, 3, 4]) ∧
    ∃ r, operator_eq 3 heapCmp list123 list1234 = Outcome.ok r ∧
      (r = true ↔ GetSize list123 = GetSize list1234 ∧
        ∀ i, ∀ (h1 : i < [1, 2, 3].length) (h2 : i < [1, 2, 3, 4].length),
          ([1, 2, 3][i] == [1, 2, 3, 4][i]) = true) :=
  ⟨by decide,
   operator_eq_spec heapCmp list123 list1234 [1, 2, 3] [1, 2, 3, 4] 3 (by decide) (by decide)
     (by decide)⟩

theorem lexLess_cons {α : Type} [LT α] (a b : α) (as bs : List α) :
    LexLess (a :: as) (b :: bs) ↔ a < b ∨ (a = b ∧ LexLess as bs) := by
  constructor
  · rintro (⟨hlen, htake⟩ | ⟨k, h1, h2, htake, hlt⟩)
    · right
      simp only [List.length_cons, List.take_succ_cons, List.cons.injEq] at hlen htake
      exact ⟨htake.1.symm, Or.inl ⟨by omega, htake.2⟩⟩
    · cases k with
      | zero => exact Or.inl (by simpa using hlt)
      | succ k =>
        right
        simp only [List.take_succ_cons, List.cons.injEq, List.getElem_cons_succ,
          List.length_cons] at htake hlt h1 h2
        exact ⟨htake.1, Or.inr ⟨k, by omega, by omega, htake.2, hlt⟩⟩
  · rintro (hlt | ⟨rfl, ⟨hlen, htake⟩ | ⟨k, h1, h2, htake, hlt⟩⟩)
    · exact Or.inr ⟨0, by simp, by simp, by simp, by simpa using hlt⟩
    · left
      refine ⟨by simpa using hlen, ?_⟩
      simp [htake]
    · right
      refine ⟨k + 1, by simpa using h1, by simpa using h2, by simp [htake], ?_⟩
      simpa using hlt

theorem seqLt_iff {α : Type} [LinearOrder α] (A B : List α) :
    seqLt A B = true ↔ LexLess A B := by
  induction A generalizing B with
  | nil =>
    cases B with
    | nil => simp [seqLt, LexLess, StrictPrefix, FirstDiffLess]
    | cons b bs => simp [seqLt, LexLess, StrictPrefix]
  | cons a as ih =>
    cases B with
    | nil => simp [seqLt, LexLess, StrictPrefix, FirstDiffLess]
    | cons b bs =>
      rw [lexLess_cons, seqLt]
      rcases lt_trichotomy a b with hab | hab | hab
      · simp [hab]
      · subst hab
        simp [ih]
      · have h1 : ¬ a < b := not_lt_of_gt hab
        have h2 : a ≠ b := ne_of_gt hab
        simp [h1, h2, hab]

theorem lexLessUpToEquiv_cons {α : Type} [LT α] (a b : α) (as bs : List α) :
    LexLessUpToEquiv (a :: as) (b :: bs) ↔
      a < b ∨ (¬ a < b ∧ ¬ b < a ∧ LexLessUpToEquiv as bs) := by
  constructor
  · rintro ⟨k, hpre, hk⟩
    cases k with
    | zero =>
      rcases hk with ⟨h0, _⟩ | ⟨h1, h2, hlt⟩
      · simp at h0
      · exact Or.inl (by simpa using hlt)
    | succ k =>
      right
      have h0 := hpre 0 (by simp) (by simp) (by omega)
      refine ⟨by simpa using h0.1, by simpa using h0.2, k, ?_, ?_⟩
      · intro i h1 h2 hik
        have := hpre (i + 1) (by simpa using h1) (by simpa using h2) (by omega)
        simpa using this
      · rcases hk with ⟨h1, h2⟩ | ⟨h1, h2, hlt⟩
        · left
          simp only [List.length_cons] at h1 h2
          exact ⟨by omega, by omega⟩
        · right
          simp only [List.length_cons] at h1 h2
          exact ⟨by omega, by omega, by simpa using hlt⟩
  · rintro (hlt | ⟨h1, h2, k, hpre, hk⟩)
    · exact ⟨0, fun i _ _ hi => absurd hi (by omega),
        Or.inr ⟨by simp, by simp, by simpa using hlt⟩⟩
    · refine ⟨k + 1, ?_, ?_⟩
      · intro i hi1 hi2 hik
        cases i with
        | zero => simpa using ⟨h1, h2⟩
        | succ i =>
          simp only [List.length_cons] at hi1 hi2
          have := hpre i (by omega) (by omega) (by omega)
          simpa using this
      · rcases hk with ⟨e1, e2⟩ | ⟨e1, e2, hlt⟩
        · left
          simp only [List.length_cons]
          exact ⟨by omega, by omega⟩
        · right
          exact ⟨by simpa using e1, by simpa using e2, by simpa using hlt⟩

theorem seqLt_iff_upToEquiv {α : Type} [LT α] [DecidableRel (fun a b : α => a < b)]
    (A B : List α) : seqLt A B = true ↔ LexLessUpToEquiv A B := by
  induction A generalizing B with
  | nil =>
    cases B with
    | nil =>
      simp only [seqLt, Bool.false_eq_true, false_iff]
      rintro ⟨k, _, ⟨_, h2⟩ | ⟨h1, _⟩⟩
      · simp at h2
      · simp at h1
    | cons b bs =>
      simp only [seqLt, true_iff]
      exact ⟨0, fun i _ _ hi => absurd hi (by omega), Or.inl ⟨rfl, by simp⟩⟩
  | cons a as ih =>
    cases B with
    | nil =>
      simp only [seqLt, Bool.false_eq_true, false_iff]
      rintro ⟨k, _, ⟨_, h2⟩ | ⟨_, h2, _⟩⟩
      · simp at h2
      · simp at h2
    | cons b bs =>
      rw [lexLessUpToEquiv_cons, seqLt]
      by_cases h1 : a < b
      · simp [h1]
      · by_cases h2 : b < a
        · simp [h1, h2]
        · simp [h1, h2, ih]

theorem seqLt_iff_of_total {α : Type} [LT α] [DecidableRel (fun a b : α => a < b)]
    (hirr : ∀ a : α, ¬ a < a) (htri : ∀ a b : α, a < b ∨ a = b ∨ b < a) (A B : List α) :
    seqLt A B = true ↔ LexLess A B := by
  induction A generalizing B with
  | nil =>
    cases B with
    | nil => simp [seqLt, LexLess, StrictPrefix, FirstDiffLess]
    | cons b bs => simp [seqLt, LexLess, StrictPrefix]
  | cons a as ih =>
    cases B with
    | nil => simp [seqLt, LexLess, StrictPrefix, FirstDiffLess]
    | cons b bs =>
      rw [lexLess_cons, seqLt]
      by_cases h1 : a < b
      · simp [h1]
      · by_cases h2 : b < a
        · have hne : a ≠ b := fun e => hirr a (e ▸ h2)
          simp [h1, h2, hne]
        · have he : a = b := by
            rcases htri a b with h | h | h
            · exact absurd h h1
            · exact h
            · exact absurd h h2
          subst he
          simp [h1, ih]

/-- C8, amended: for two lists `A` and `B` with element sequences `SA` and
`SB` over any element type with a decidable `<`, `A < B` returns normally, and
it returns `true` exactly when, for some index `k`, the elements before `k` are
pairwise equivalent under `<` (neither is less than the other) and either `SA`
ends at `k` while `SB` goes on or the element of `SA` at `k` is less than the
element of `SB` at `k`.  When `<` is irreflexive and any two different elements
are comparable, this is exactly: `SA` is a strict prefix of `SB`, or at the
first index where they differ the element of `SA` is less.  In particular
`[1,2] < [1,2,3]`, `[1,2,3] < [1,3]` and `[1,2,3] < [1,2,3,4]` all return
`true`. -/
theorem operator_lt_spec {α : Type} [LT α] [DecidableRel (fun a b : α => a < b)]
    (h : Heap α) (A B : SingleLinkedList)
    (SA SB : List α) (fuel : Nat) (hA : HasSeq h A SA) (hB : HasSeq h B SB)
    (hf : min SA.length SB.length ≤ fuel) :
    (∃ r, operator_lt fuel h A B = Outcome.ok r ∧ (r = true ↔ LexLessUpToEquiv SA SB) ∧
      ((∀ a : α, ¬ a < a) → (∀ a b : α, a < b ∨ a = b ∨ b < a) →
        (r = true ↔ LexLess SA SB))) ∧
    (operator_lt 2 heapCmp list12b list123 = Outcome.ok true ∧
      operator_lt 2 heapCmp list123 list13 = Outcome.ok true ∧
      operator_lt 3 heapCmp list123 list1234 = Outcome.ok true) := by
  obtain ⟨cA, hrA, rfl⟩ := (hasSeq_iff_rep h A SA).1 hA
  obtain ⟨cB, hrB, rfl⟩ := (hasSeq_iff_rep h B SB).1 hB
  refine ⟨⟨_, operator_lt_rep hrA hrB fuel (by simpa using hf), seqLt_iff_upToEquiv _ _,
    fun hirr htri => seqLt_iff_of_total hirr htri _ _⟩, ?_⟩
  decide

/-- C8, amended, at two concrete states: `1, 2, 3` against `1, 3` over the
natural numbers, and `(0,1), (0,0)` against `(0,0), (1,0)` over elements
compared by key alone. -/
theorem operator_lt_spec_witness :
    ((HasSeq heapCmp list123 [1, 2, 3] ∧ HasSeq heapCmp list13 [1, 3]) ∧
      ((∃ r, operator_lt 2 heapCmp list123 list13 = Outcome.ok r ∧
          (r = true ↔ LexLessUpToEquiv [1, 2, 3] [1, 3]) ∧
          ((∀ a : Nat, ¬ a < a) → (∀ a b : Nat, a < b ∨ a = b ∨ b < a) →
            (r = true ↔ LexLess [1, 2, 3] [1, 3]))) ∧
        (operator_lt 2 heapCmp list12b list123 = Outcome.ok true ∧
          operator_lt 2 heapCmp list123 list13 = Outcome.ok true ∧
          operator_lt 3 heapCmp list123 list1234 = Outcome.ok true))) ∧
    ((HasSeq heapKeyed keyedA [⟨0, 1⟩, ⟨0, 0⟩] ∧ HasSeq heapKeyed keyedB [⟨0, 0⟩, ⟨1, 0⟩]) ∧
      ((∃ r, operator_lt 2 heapKeyed keyedA keyedB = Outcome.ok r ∧
          (r = true ↔ LexLessUpToEquiv ([⟨0, 1⟩, ⟨0, 0⟩] : List Keyed) [⟨0, 0⟩, ⟨1, 0⟩]) ∧
          ((∀ a : Keyed, ¬ a < a) → (∀ a b : Keyed, a < b ∨ a = b ∨ b < a) →
            (r = true ↔ LexLess ([⟨0, 1⟩, ⟨0, 0⟩] : List Keyed) [⟨0, 0⟩, ⟨1, 0⟩]))) ∧
        (operator_lt 2 heapCmp list12b list123 = Outcome.ok true ∧
          operator_lt 2 heapCmp list123 list13 = Outcome.ok true ∧
          operator_lt 3 heapCmp list123 list1234 = Outcome.ok true))) :=
  ⟨⟨by decide,
    operator_lt_spec heapCmp list123 list13 [1, 2, 3] [1, 3] 2 (by decide) (by decide)
      (by decide)⟩,
   ⟨by decide,
    operator_lt_spec heapKeyed keyedA keyedB [⟨0, 1⟩, ⟨0, 0⟩] [⟨0, 0⟩, ⟨1, 0⟩] 2 (by decide)
      (by decide) (by decide)⟩⟩

/-- C8 as stated fails on an element type compared by key alone: for the lists
`(0,1), (0,0)` and `(0,0), (1,0)`, `A < B` returns `true`, yet `A` is no strict
prefix of `B` and at index 0, the first index where the two differ, the element
of `A` is not less than the element of `B`. -/
theorem operator_lt_not_lexLess :
    HasSeq heapKeyed keyedA [⟨0, 1⟩, ⟨0, 0⟩] ∧ HasSeq heapKeyed keyedB [⟨0, 0⟩, ⟨1, 0⟩] ∧
    operator_lt 2 heapKeyed keyedA keyedB = Outcome.ok true ∧
    ¬ LexLess ([⟨0, 1⟩, ⟨0, 0⟩] : List Keyed) [⟨0, 0⟩, ⟨1, 0⟩] := by
  refine ⟨by decide, by decide, by decide, ?_⟩
  rintro (⟨hlen, _⟩ | ⟨k, h1, h2, htake, hlt⟩)
  · simp at hlen
  · simp only [List.length_cons, List.length_nil] at h1
    have hk : k = 0 ∨ k = 1 := by omega
    rcases hk with rfl | rfl
    · have h0 : (0 : Nat) < 0 := hlt
      omega
    · simp at htake

theorem seqEq_eq {α : Type} [DecidableEq α] (A B : List α) : seqEq A B = true ↔ A = B := by
  induction A generalizing B with
  | nil =>
    cases B with
    | nil => simp [seqEq]
    | cons b bs => simp [seqEq]
  | cons a as ih =>
    cases B with
    | nil => simp [seqEq]
    | cons b bs => simp [seqEq, ih]

theorem seq_trichotomy {α : Type} [LinearOrder α] (A B : List α) :
    (seqLt A B = true ∧ seqEq A B = false ∧ seqLt B A = false) ∨
    (seqLt A B = false ∧ seqEq A B = true ∧ seqLt B A = false) ∨
    (seqLt A B = false ∧ seqEq A B = false ∧ seqLt B A = true) := by
  induction A generalizing B with
  | nil =>
    cases B with
    | nil => simp [seqLt, seqEq]
    | cons b bs => simp [seqLt, seqEq]
  | cons a as ih =>
    cases B with
    | nil => simp [seqLt, seqEq]
    | cons b bs =>
      rcases lt_trichotomy a b with hab | hab | hab
      · have h1 : ¬ b < a := not_lt_of_gt hab
        have h2 : a ≠ b := ne_of_lt hab
        simp [seqLt, seqEq, hab, h1, h2]
      · subst hab
        simpa [seqLt, seqEq] using ih bs
      · have h1 : ¬ a < b := not_lt_of_gt hab
        have h2 : a ≠ b := ne_of_gt hab
        simp [seqLt, seqEq, hab, h1, h2]

/-- C9: for lists `A`, `B`, `C` over a linearly ordered element type, the three
comparisons `A < B`, `A == B`, `A > B` return normally and exactly one of them
returns `true`; `==` is reflexive (`A == A`), symmetric (`A == B` and `B == A`
return the same) and transitive. -/
theorem comparison_trichotomy {α : Type} [LinearOrder α] (h : Heap α)
    (A B C : SingleLinkedList) (SA SB SC : List α) (fuel : Nat)
    (hA : HasSeq h A SA) (hB : HasSeq h B SB) (hC : HasSeq h C SC)
    (hfA : SA.length ≤ fuel) (hfB : SB.length ≤ fuel) :
    (∃ lt eq gt, operator_lt fuel h A B = Outcome.ok lt ∧
        operator_eq fuel h A B = Outcome.ok eq ∧ operator_gt fuel h A B = Outcome.ok gt ∧
        ((lt = true ∧ eq = false ∧ gt = false) ∨ (lt = false ∧ eq = true ∧ gt = false) ∨
          (lt = false ∧ eq = false ∧ gt = true))) ∧
    operator_eq fuel h A A = Outcome.ok true ∧
    operator_eq fuel h A B = operator_eq fuel h B A ∧
    (∃ r1 r2 r3, operator_eq fuel h A B = Outcome.ok r1 ∧
        operator_eq fuel h B C = Outcome.ok r2 ∧ operator_eq fuel h A C = Outcome.ok r3 ∧
        (r1 = true → r2 = true → r3 = true)) := by
  obtain ⟨cA, hrA, rfl⟩ := (hasSeq_iff_rep h A SA).1 hA
  obtain ⟨cB, hrB, rfl⟩ := (hasSeq_iff_rep h B SB).1 hB
  obtain ⟨cC, hrC, rfl⟩ := (hasSeq_iff_rep h C SC).1 hC
  rw [List.length_map] at hfA hfB
  have hAB : min cA.length cB.length ≤ fuel := le_trans (min_le_left _ _) hfA
  have hBA : min cB.length cA.length ≤ fuel := le_trans (min_le_left _ _) hfB
  have hBC : min cB.length cC.length ≤ fuel := le_trans (min_le_left _ _) hfB
  have hAC : min cA.length cC.length ≤ fuel := le_trans (min_le_left _ _) hfA
  have hAA : min cA.length cA.length ≤ fuel := le_trans (min_le_left _ _) hfA
  refine ⟨⟨_, _, _, operator_lt_rep hrA hrB fuel hAB, operator_eq_rep hrA hrB fuel hAB,
    operator_lt_rep hrB hrA fuel hBA, seq_trichotomy _ _⟩, ?_, ?_, ?_⟩
  · rw [operator_eq_rep hrA hrA fuel hAA, (seqEq_eq _ _).2 rfl]
  · rw [operator_eq_rep hrA hrB fuel hAB, operator_eq_rep hrB hrA fuel hBA]
    congr 1
    rw [Bool.eq_iff_iff, seqEq_eq, seqEq_eq]
    exact eq_comm
  · refine ⟨_, _, _, operator_eq_rep hrA hrB fuel hAB, operator_eq_rep hrB hrC fuel hBC,
      operator_eq_rep hrA hrC fuel hAC, ?_⟩
    rw [seqEq_eq, seqEq_eq, seqEq_eq]
    exact Eq.trans

/-- C9 at a concrete state: `1, 2, 3`, `1, 2, 3, 4` and `1, 3`. -/
theorem comparison_trichotomy_witness :
    (HasSeq heapCmp list123 [1, 2, 3] ∧ HasSeq heapCmp list1234 [1, 2, 3, 4] ∧
      HasSeq heapCmp list13 [1, 3]) ∧
    ((∃ lt eq gt, operator_lt 4 heapCmp list123 list1234 = Outcome.ok lt ∧
        operator_eq 4 heapCmp list123 list1234 = Outcome.ok eq ∧
        operator_gt 4 heapCmp list123 list1234 = Outcome.ok gt ∧
        ((lt = true ∧ eq = false ∧ gt = false) ∨ (lt = false ∧ eq = true ∧ gt = false) ∨
          (lt = false ∧ eq = false ∧ gt = true))) ∧
    operator_eq 4 heapCmp list123 list123 = Outcome.ok true ∧
    operator_eq 4 heapCmp list123 list1234 = operator_eq 4 heapCmp list1234 list123 ∧
    (∃ r1 r2 r3, operator_eq 4 heapCmp list123 list1234 = Outcome.ok r1 ∧
        operator_eq 4 heapCmp list1234 list13 = Outcome.ok r2 ∧
        operator_eq 4 heapCmp list123 list13 = Outcome.ok r3 ∧
        (r1 = true → r2 = true → r3 = true))) :=
  ⟨by decide,
   comparison_trichotomy heapCmp list123 list1234 list13 [1, 2, 3] [1, 2, 3, 4] [1, 3] 4
     (by decide) (by decide) (by decide) (by decide) (by decide)⟩

/-- C10: for lists `A` and `B` over a linearly ordered element type, all six
comparisons return normally and the derived ones obey the total-order
identities: `A > B` iff `B < A`; `A != B` iff not `A == B`; `A <= B` iff
`A < B` or `A == B`; `A >= B` iff `B < A` or `A == B`. -/
theorem derived_operators_spec {α : Type} [LinearOrder α] (h : Heap α)
    (A B : SingleLinkedList) (SA SB : List α) (fuel : Nat)
    (hA : HasSeq h A SA) (hB : HasSeq h B SB)
    (hfA : SA.length ≤ fuel) (hfB : SB.length ≤ fuel) :
    ∃ lt ltBA eq gt ne le ge,
      operator_lt fuel h A B = Outcome.ok lt ∧ operator_lt fuel h B A = Outcome.ok ltBA ∧
      operator_eq fuel h A B = Outcome.ok eq ∧ operator_gt fuel h A B = Outcome.ok gt ∧
      operator_ne fuel h A B = Outcome.ok ne ∧ operator_le fuel h A B = Outcome.ok le ∧
      operator_ge fuel h A B = Outcome.ok ge ∧
      (gt = true ↔ ltBA = true) ∧ (ne = true ↔ ¬ eq = true) ∧
      (le = true ↔ lt = true ∨ eq = true) ∧ (ge = true ↔ ltBA = true ∨ eq = true) := by
  obtain ⟨cA, hrA, rfl⟩ := (hasSeq_iff_rep h A SA).1 hA
  obtain ⟨cB, hrB, rfl⟩ := (hasSeq_iff_rep h B SB).1 hB
  rw [List.length_map] at hfA hfB
  have hAB : min cA.length cB.length ≤ fuel := le_trans (min_le_left _ _) hfA
  have hBA : min cB.length cA.length ≤ fuel := le_trans (min_le_left _ _) hfB
  have hlt := operator_lt_rep hrA hrB fuel hAB
  have hgt := operator_lt_rep hrB hrA fuel hBA
  have heq := operator_eq_rep hrA hrB fuel hAB
  refine ⟨_, _, _, _, !seqEq (cA.map Prod.snd) (cB.map Prod.snd),
    !seqLt (cB.map Prod.snd) (cA.map Prod.snd), !seqLt (cA.map Prod.snd) (cB.map Prod.snd),
    hlt, hgt, heq, hgt, ?_, ?_, ?_, Iff.rfl, ?_⟩
  · simp only [operator_ne, heq, Outcome.bind]
  · simp only [operator_le, hgt, Outcome.bind]
  · simp only [operator_ge, hlt, Outcome.bind]
  · rcases seq_trichotomy (cA.map Prod.snd) (cB.map Prod.snd) with ⟨h1, h2, h3⟩ | ⟨h1, h2, h3⟩ |
      ⟨h1, h2, h3⟩ <;> simp [h1, h2, h3]

/-- C10 at a concrete state: `1, 2, 3` against `1, 3`. -/
theorem derived_operators_spec_witness :
    (HasSeq heapCmp list123 [1, 2, 3] ∧ HasSeq heapCmp list13 [1, 3]) ∧
    ∃ lt ltBA eq gt ne le ge,
      operator_lt 3 heapCmp list123 list13 = Outcome.ok lt ∧
      operator_lt 3 heapCmp list13 list123 = Outcome.ok ltBA ∧
      operator_eq 3 heapCmp list123 list13 = Outcome.ok eq ∧
      operator_gt 3 heapCmp list123 list13 = Outcome.ok gt ∧
      operator_ne 3 heapCmp list123 list13 = Outcome.ok ne ∧
      operator_le 3 heapCmp list123 list13 = Outcome.ok le ∧
      operator_ge 3 heapCmp list123 list13 = Outcome.ok ge ∧
      (gt = true ↔ ltBA = true) ∧ (ne = true ↔ ¬ eq = true) ∧
      (le = true ↔ lt = true ∨ eq = true) ∧ (ge = true ↔ ltBA = true ∨ eq = true) :=
  ⟨by decide,
   derived_operators_spec heapCmp list123 list13 [1, 2, 3] [1, 3] 3 (by decide) (by decide)
     (by decide) (by decide)⟩

/-! ## Copy construction and copy assignment -/

theorem copied_props {α : Type} [DecidableEq α] {h' : Heap α} {X L : SingleLinkedList}
    {new cL : List (Addr × α)} (hX : Rep h' X new) (hL : Rep h' L cL)
    (hmap : new.map Prod.snd = cL.map Prod.snd) (hdis : ∀ c ∈ new, ∀ d ∈ cL, c.1 ≠ d.1)
    (fuel : Nat) (hf : cL.length ≤ fuel) :
    HasSeq h' X (cL.map Prod.snd) ∧ GetSize X = GetSize L ∧ HasSeq h' L (cL.map Prod.snd) ∧
      operator_eq fuel h' X L = Outcome.ok true ∧
      ∀ (B : Allocator α) (m : Mutation α) (s : Heap α × SingleLinkedList),
        (applyMutation B h' X m).after = some s → HasSeq s.1 L (cL.map Prod.snd) := by
  have hlen : new.length = cL.length := by
    have := congrArg List.length hmap
    simpa using this
  refine ⟨(hasSeq_iff_rep _ _ _).2 ⟨new, hX, hmap⟩, ?_, (hasSeq_iff_rep _ _ _).2 ⟨cL, hL, rfl⟩,
    ?_, ?_⟩
  · simp [GetSize, hX.2, hL.2, hlen]
  · rw [operator_eq_rep hX hL fuel (le_trans (min_le_right _ _) hf), hmap, (seqEq_eq _ _).2 rfl]
  · intro B m s hm
    have hfr := mutation_frame B hX m s hm
    refine (hasSeq_iff_rep _ _ _).2 ⟨cL, rep_frame hL ?_, rfl⟩
    intro d hd
    exact hfr d.1 (seg_alloc hL.1 d hd) fun c hc => hdis c hc d hd

theorem nodes_disjoint {α : Type} {h : Heap α} {T L : SingleLinkedList}
    {cT cL : List (Addr × α)} (hT : Rep h T cT) (hL : Rep h L cL)
    (hdis : ∀ a ∈ nodes h T, a ∉ nodes h L) : ∀ c ∈ cT, ∀ d ∈ cL, c.1 ≠ d.1 := by
  rw [nodes_rep hT, nodes_rep hL] at hdis
  intro c hc d hd e
  exact hdis c.1 (List.mem_map_of_mem Prod.fst hc) (e ▸ List.mem_map_of_mem Prod.fst hd)

/-- C6: let `L` be a list with element sequence `S` (possibly empty) and `T` a
list with any contents `ST` whose nodes are not nodes of `L`.  When no
allocation fails, the copy construction from `L` and the assignment `T = L`
both return normally, and for each of them: the target has the element
sequence `S` and the size of `L` (and `target == L` returns `true`), `L` still
has the element sequence `S`, and whatever state a following `PushFront`,
`PopFront`, `InsertAfter`, `EraseAfter` or `Clear` on the target leaves, `L`
still has the element sequence `S` there. -/
theorem copy_spec {α : Type} [DecidableEq α] (A : Allocator α) (fuel : Nat) (h : Heap α)
    (T L : SingleLinkedList) (ST S : List α)
    (hT : HasSeq h T ST) (hL : HasSeq h L S)
    (hdis : ∀ a ∈ nodes h T, a ∉ nodes h L) (hf : S.length ≤ fuel)
    (hno1 : (copyConstruct A fuel h L).isBadAlloc = false)
    (hno2 : (assign A fuel h T (Rhs.other L)).isBadAlloc = false) :
    (∃ h' N, copyConstruct A fuel h L = Outcome.ok (h', N) ∧
      HasSeq h' N S ∧ GetSize N = GetSize L ∧ HasSeq h' L S ∧
      operator_eq fuel h' N L = Outcome.ok true ∧
      ∀ (B : Allocator α) (m : Mutation α) (s : Heap α × SingleLinkedList),
        (applyMutation B h' N m).after = some s → HasSeq s.1 L S) ∧
    (∃ h' T', assign A fuel h T (Rhs.other L) = Outcome.ok (h', T') ∧
      HasSeq h' T' S ∧ GetSize T' = GetSize L ∧ HasSeq h' L S ∧
      operator_eq fuel h' T' L = Outcome.ok true ∧
      ∀ (B : Allocator α) (m : Mutation α) (s : Heap α × SingleLinkedList),
        (applyMutation B h' T' m).after = some s → HasSeq s.1 L S) := by
  obtain ⟨cT, hrT, _⟩ := (hasSeq_iff_rep h T ST).1 hT
  obtain ⟨cL, hrL, rfl⟩ := (hasSeq_iff_rep h L S).1 hL
  rw [List.length_map] at hf
  constructor
  · rcases CopyList_rep A fuel (rep_empty h) hrL (by simp) hf with
      ⟨h', N, new, hok, hN, hmap, hL', hnew, _⟩ | ⟨h', hbad, _⟩
    · exact ⟨h', N, hok, copied_props hN hL' hmap (fresh_ne_alloc hnew hrL.1) fuel hf⟩
    · rw [copyConstruct, hbad] at hno1
      simp [Outcome.isBadAlloc] at hno1
  · rcases CopyList_rep A fuel hrT hrL (nodes_disjoint hrT hrL hdis) hf with
      ⟨h', T', new, hok, hN, hmap, hL', hnew, _⟩ | ⟨h', hbad, _⟩
    · exact ⟨h', T', hok, copied_props hN hL' hmap (fresh_ne_alloc hnew hrL.1) fuel hf⟩
    · rw [assign, hbad] at hno2
      simp [Outcome.isBadAlloc] at hno2

theorem heapCmp_disjoint : ∀ a ∈ nodes heapCmp list13, a ∉ nodes heapCmp list123 := by
  have h1 : nodes heapCmp list13 = [40, 41] := by decide
  have h2 : nodes heapCmp list123 = [20, 21, 22] := by decide
  rw [h1, h2]
  simp

/-- C6 at a concrete state: copying `1, 2, 3` and assigning it to the list
`1, 3` of the same heap. -/
theorem copy_spec_witness :
    (HasSeq heapCmp list13 [1, 3] ∧ HasSeq heapCmp list123 [1, 2, 3] ∧
      (∀ a ∈ nodes heapCmp list13, a ∉ nodes heapCmp list123)) ∧
    ((∃ h' N, copyConstruct (poolAllocator Nat [60, 61, 62]) 3 heapCmp list123
          = Outcome.ok (h', N) ∧
      HasSeq h' N [1, 2, 3] ∧ GetSize N = GetSize list123 ∧ HasSeq h' list123 [1, 2, 3] ∧
      operator_eq 3 h' N list123 = Outcome.ok true ∧
      ∀ (B : Allocator Nat) (m : Mutation Nat) (s : Heap Nat × SingleLinkedList),
        (applyMutation B h' N m).after = some s → HasSeq s.1 list123 [1, 2, 3]) ∧
    (∃ h' T', assign (poolAllocator Nat [60, 61, 62]) 3 heapCmp list13 (Rhs.other list123)
          = Outcome.ok (h', T') ∧
      HasSeq h' T' [1, 2, 3] ∧ GetSize T' = GetSize list123 ∧ HasSeq h' list123 [1, 2, 3] ∧
      operator_eq 3 h' T' list123 = Outcome.ok true ∧
      ∀ (B : Allocator Nat) (m : Mutation Nat) (s : Heap Nat × SingleLinkedList),
        (applyMutation B h' T' m).after = some s → HasSeq s.1 list123 [1, 2, 3])) :=
  ⟨⟨by decide, by decide, heapCmp_disjoint⟩,
   copy_spec (poolAllocator Nat [60, 61, 62]) 3 heapCmp list13 list123 [1, 3] [1, 2, 3]
     (by decide) (by decide) heapCmp_disjoint (by decide) (by decide) (by decide)⟩

/-! ## swap, Clear, allocation failure, iteration bounds, self-assignment -/

/-- C11: for lists `A` and `B` with element sequences `SA` and `SB`, after
`A.swap(B)` the list `A` has the sequence `SB` and the size `|SB|`, and `B` has
the sequence `SA` and the size `|SA|` (no node is touched); the free function
`swap(A, B)` gives the same pair of lists. -/
theorem swap_spec {α : Type} (h : Heap α) (A B : SingleLinkedList) (SA SB : List α)
    (hA : HasSeq h A SA) (hB : HasSeq h B SB) :
    HasSeq h (swap A B).1 SB ∧ GetSize (swap A B).1 = SB.length ∧
    HasSeq h (swap A B).2 SA ∧ GetSize (swap A B).2 = SA.length ∧
    swap_free A B = swap A B :=
  ⟨hB, hB.1, hA, hA.1, rfl⟩

/-- C11 at a concrete state: swapping `1, 2, 3` and `1, 3`. -/
theorem swap_spec_witness :
    (HasSeq heapCmp list123 [1, 2, 3] ∧ HasSeq heapCmp list13 [1, 3]) ∧
    (HasSeq heapCmp (swap list123 list13).1 [1, 3] ∧
      GetSize (swap list123 list13).1 = [1, 3].length ∧
      HasSeq heapCmp (swap list123 list13).2 [1, 2, 3] ∧
      GetSize (swap list123 list13).2 = [1, 2, 3].length ∧
      swap_free list123 list13 = swap list123 list13) :=
  ⟨by decide, swap_spec heapCmp list123 list13 [1, 2, 3] [1, 3] (by decide) (by decide)⟩

/-- C12: on a list with any element sequence `S`, `Clear()` returns normally
and frees every node of the list; afterwards `GetSize()` is `0`, `IsEmpty()` is
true, `begin() == end()`, and the list has the empty element sequence. -/
theorem Clear_spec {α : Type} (h : Heap α) (l : SingleLinkedList) (S : List α)
    (hS : HasSeq h l S) :
    ∃ h' l', Clear h l = Outcome.ok (h', l') ∧ GetSize l' = 0 ∧ IsEmpty l' = true ∧
      l'.begin = SingleLinkedList.end_ ∧ HasSeq h' l' [] ∧ ∀ a ∈ nodes h l, h' a = none := by
  obtain ⟨cells, hr, _⟩ := (hasSeq_iff_rep h l S).1 hS
  obtain ⟨h', hcl, _, hnone⟩ := Clear_rep hr
  refine ⟨h', SingleLinkedList.empty, hcl, rfl, rfl, rfl,
    (hasSeq_iff_rep _ _ _).2 ⟨[], rep_empty h', rfl⟩, ?_⟩
  rw [nodes_rep hr]
  intro a ha
  obtain ⟨c, hc, rfl⟩ := List.mem_map.1 ha
  exact hnone c hc

/-- C12 at a concrete state: clearing the list `1, 2`. -/
theorem Clear_spec_witness :
    HasSeq heap12 list12 [1, 2] ∧
    ∃ h' l', Clear heap12 list12 = Outcome.ok (h', l') ∧ GetSize l' = 0 ∧ IsEmpty l' = true ∧
      l'.begin = SingleLinkedList.end_ ∧ HasSeq h' l' [] ∧
      ∀ a ∈ nodes heap12 list12, h' a = none :=
  ⟨by decide, Clear_spec heap12 list12 [1, 2] (by decide)⟩

theorem deref_begin {α : Type} {h : Heap α} {l : SingleLinkedList} {c : Addr × α}
    {cells : List (Addr × α)} (hr : Rep h l (c :: cells)) :
    l.begin.deref h = Outcome.ok c.2 := by
  obtain ⟨hp, nx, hc, _⟩ := hr.1
  simp [SingleLinkedList.begin, hp, NodePtr.ofLink, BasicIterator.deref, hc]

theorem insert_erase_seg {α : Type} (A : Allocator α) {h : Heap α} {l : SingleLinkedList}
    {pre post : List (Addr × α)} {q : Option Addr} (v : α) {buff : Addr}
    (h1 : Seg h l.head_next_node pre q) (h2 : Seg h q post none)
    (hsz : l.size_ = (pre ++ post).length) (hb : A.pick h = some buff) :
    ∃ ha la it hb1 lb it2,
      InsertAfter A h l ⟨lastPtr pre NodePtr.head⟩ v = Outcome.ok (ha, la, it) ∧
      EraseAfter ha la ⟨lastPtr pre NodePtr.head⟩ = Outcome.ok (hb1, lb, it2) ∧
      Rep hb1 lb (pre ++ post) := by
  obtain ⟨ha, la, hins, hrep, _⟩ := InsertAfter_seg A v h1 h2 hsz hb
  obtain ⟨m, hpre, hpost⟩ := (seg_append ha pre ((buff, v) :: post) _ _).1 hrep.1
  obtain ⟨hb1, lb, nx, hers, hrep2, _⟩ := EraseAfter_seg hpre hpost hrep.2
  exact ⟨ha, la, _, hb1, lb, _, hins, hers, hrep2⟩

/-- C13: on a list with element sequence `S`, for the position `pos` reached
from `before_begin()` by `k ≤ |S|` increments and a successful allocation,
`InsertAfter(pos, v)` followed by `EraseAfter(pos)` both return normally and
leave the prior size and the prior element sequence `S`; likewise
`PushFront(v)` followed by `PopFront()`, after which a non-empty list has its
prior first element at `begin()` again. -/
theorem insert_erase_roundtrip {α : Type} (A : Allocator α) (h : Heap α)
    (l : SingleLinkedList) (S : List α) (k : Nat) (pos : BasicIterator) (v : α)
    (hS : HasSeq h l S) (hk : k ≤ S.length)
    (hpos : advance h l k SingleLinkedList.before_begin = Outcome.ok pos)
    (halloc : A.pick h ≠ none) :
    (∃ ha la it hb lb it2, InsertAfter A h l pos v = Outcome.ok (ha, la, it) ∧
      EraseAfter ha la pos = Outcome.ok (hb, lb, it2) ∧
      GetSize lb = GetSize l ∧ HasSeq hb lb S) ∧
    (∃ ha la hb lb, PushFront A h l v = Outcome.ok (ha, la) ∧
      PopFront ha la = Outcome.ok (hb, lb) ∧
      GetSize lb = GetSize l ∧ HasSeq hb lb S ∧
      ∀ x rest, S = x :: rest → lb.begin.deref hb = Outcome.ok x) := by
  obtain ⟨cells, hr, rfl⟩ := (hasSeq_iff_rep h l S).1 hS
  rw [List.length_map] at hk
  obtain ⟨buff, hb⟩ := Option.ne_none_iff_exists'.1 halloc
  constructor
  · obtain ⟨q, h1, h2⟩ := rep_split hr k
    have hlen : (cells.take k).length = k := by simp [hk]
    have hadv := advance_before_begin l h1
    rw [hlen, hpos] at hadv
    cases hadv
    have hsz : l.size_ = (cells.take k ++ cells.drop k).length := by
      rw [List.take_append_drop]
      exact hr.2
    obtain ⟨ha, la, it, hb1, lb, it2, hins, hers, hrep⟩ := insert_erase_seg A v h1 h2 hsz hb
    rw [List.take_append_drop] at hrep
    refine ⟨ha, la, it, hb1, lb, it2, hins, hers, ?_, (hasSeq_iff_rep _ _ _).2 ⟨cells, hrep, rfl⟩⟩
    simp [GetSize, hrep.2, hr.2]
  · obtain ⟨ha, la, hpush, _, hrep, _⟩ := PushFront_rep A v hr hb
    obtain ⟨hb1, lb, _, hpop, _, hrep2, _⟩ := PopFront_rep hrep
    refine ⟨ha, la, hb1, lb, hpush, hpop, ?_, (hasSeq_iff_rep _ _ _).2 ⟨cells, hrep2, rfl⟩, ?_⟩
    · simp [GetSize, hrep2.2, hr.2]
    · intro x rest hx
      cases cells with
      | nil => simp at hx
      | cons c cells =>
        rw [List.map_cons, List.cons.injEq] at hx
        rw [deref_begin hrep2, hx.1]

/-- C13 at a concrete state: inserting 9 after the first node of `1, 2` and
erasing after it again. -/
theorem insert_erase_roundtrip_witness :
    HasSeq heap12 list12 [1, 2] ∧
    ((∃ ha la it hb lb it2, InsertAfter (poolAllocator Nat [12, 13, 14]) heap12 list12
          ⟨NodePtr.cell 10⟩ 9 = Outcome.ok (ha, la, it) ∧
      EraseAfter ha la ⟨NodePtr.cell 10⟩ = Outcome.ok (hb, lb, it2) ∧
      GetSize lb = GetSize list12 ∧ HasSeq hb lb [1, 2]) ∧
    (∃ ha la hb lb, PushFront (poolAllocator Nat [12, 13, 14]) heap12 list12 9
          = Outcome.ok (ha, la) ∧
      PopFront ha la = Outcome.ok (hb, lb) ∧
      GetSize lb = GetSize list12 ∧ HasSeq hb lb [1, 2] ∧
      ∀ x rest, [1, 2] = x :: rest → lb.begin.deref hb = Outcome.ok x)) :=
  ⟨by decide,
   insert_erase_roundtrip (poolAllocator Nat [12, 13, 14]) heap12 list12 [1, 2] 1
     ⟨NodePtr.cell 10⟩ 9 (by decide) (by decide) rfl (by decide)⟩

/-- C14: starting from an empty list, when no allocation fails, the calls
`PushFront(x1)`, ..., `PushFront(xn)` in that order all return normally and
leave a list with `GetSize() == n` whose traversal is `xn, ..., x1`. -/
theorem pushFront_n_spec {α : Type} (A : Allocator α) (h : Heap α) (xs : List α)
    (hno : (pushAll A h SingleLinkedList.empty xs).isBadAlloc = false) :
    ∃ h' l', pushAll A h SingleLinkedList.empty xs = Outcome.ok (h', l') ∧
      GetSize l' = xs.length ∧ HasSeq h' l' xs.reverse ∧
      ∀ fuel, xs.length ≤ fuel → traverse h' l' fuel l'.begin = Outcome.ok xs.reverse := by
  obtain ⟨h', l', new, hok, hrep, hmap, _, _⟩ := pushAll_rep A xs (rep_empty h) hno
  rw [List.append_nil] at hrep
  have hS : HasSeq h' l' xs.reverse := (hasSeq_iff_rep h' l' _).2 ⟨new, hrep, hmap⟩
  refine ⟨h', l', hok, ?_, hS, fun fuel hf => traverse_mono hS fuel (by simpa using hf)⟩
  rw [hS.1, List.length_reverse]

/-- C14 at a concrete input: pushing `1`, `2`, `3` gives `3, 2, 1`. -/
theorem pushFront_n_spec_witness :
    (pushAll (poolAllocator Nat [12, 13, 14]) heap12 SingleLinkedList.empty
      [1, 2, 3]).isBadAlloc = false ∧
    ∃ h' l', pushAll (poolAllocator Nat [12, 13, 14]) heap12 SingleLinkedList.empty [1, 2, 3]
        = Outcome.ok (h', l') ∧
      GetSize l' = [1, 2, 3].length ∧ HasSeq h' l' [1, 2, 3].reverse ∧
      ∀ fuel, [1, 2, 3].length ≤ fuel →
        traverse h' l' fuel l'.begin = Outcome.ok [1, 2, 3].reverse :=
  ⟨by decide,
   pushFront_n_spec (poolAllocator Nat [12, 13, 14]) heap12 [1, 2, 3] (by decide)⟩

/-- C15: let `T` and `L` be lists with element sequences `ST` and `S` that own
different nodes.  If the assignment `T = L` ends with `std::bad_alloc` (at
whichever source element the allocation fails), the exception leaves the very
list object `T` it found, `T` still has the element sequence `ST`, `L` still
has the element sequence `S`, and no node that existed before was changed. -/
theorem assign_strong_guarantee {α : Type} (A : Allocator α) (fuel : Nat) (h : Heap α)
    (T L : SingleLinkedList) (ST S : List α)
    (hT : HasSeq h T ST) (hL : HasSeq h L S)
    (hdis : ∀ a ∈ nodes h T, a ∉ nodes h L) (hf : S.length ≤ fuel)
    (hbad : (assign A fuel h T (Rhs.other L)).isBadAlloc = true) :
    ∃ h', assign A fuel h T (Rhs.other L) = Outcome.bad_alloc (h', T) ∧
      HasSeq h' T ST ∧ GetSize T = ST.length ∧ HasSeq h' L S ∧ GetSize L = S.length ∧
      ∀ b, h b ≠ none → h' b = h b := by
  obtain ⟨cT, hrT, rfl⟩ := (hasSeq_iff_rep h T ST).1 hT
  obtain ⟨cL, hrL, rfl⟩ := (hasSeq_iff_rep h L S).1 hL
  rw [List.length_map] at hf
  rcases CopyList_rep A fuel hrT hrL (nodes_disjoint hrT hrL hdis) hf with
    ⟨h', T', new, hok, _⟩ | ⟨h', hb, hT', hL', hfr⟩
  · rw [assign, hok] at hbad
    simp [Outcome.isBadAlloc] at hbad
  · exact ⟨h', hb, (hasSeq_iff_rep _ _ _).2 ⟨cT, hT', rfl⟩, hT.1,
      (hasSeq_iff_rep _ _ _).2 ⟨cL, hL', rfl⟩, hL.1, hfr⟩

/-- C15 at a concrete state: assigning `1, 2, 3` to the list `1, 3` when only
two nodes can be allocated. -/
theorem assign_strong_guarantee_witness :
    (HasSeq heapCmp list13 [1, 3] ∧ HasSeq heapCmp list123 [1, 2, 3] ∧
      (assign (poolAllocator Nat [60, 61]) 3 heapCmp list13 (Rhs.other list123)).isBadAlloc
        = true) ∧
    ∃ h', assign (poolAllocator Nat [60, 61]) 3 heapCmp list13 (Rhs.other list123)
        = Outcome.bad_alloc (h', list13) ∧
      HasSeq h' list13 [1, 3] ∧ GetSize list13 = [1, 3].length ∧
      HasSeq h' list123 [1, 2, 3] ∧ GetSize list123 = [1, 2, 3].length ∧
      ∀ b, heapCmp b ≠ none → h' b = heapCmp b :=
  ⟨by decide,
   assign_strong_guarantee (poolAllocator Nat [60, 61]) 3 heapCmp list13 list123 [1, 3]
     [1, 2, 3] (by decide) (by decide) heapCmp_disjoint (by decide) (by decide)⟩

/-- C16: on a list with element sequence `S`, for the position `pos` reached
from `before_begin()` by `k ≤ |S|` increments, when the allocation of the new
node fails `InsertAfter(pos, v)` ends with `std::bad_alloc` and leaves the heap
and the list object exactly as they were: same size, same element sequence. -/
theorem InsertAfter_alloc_failure {α : Type} (A : Allocator α) (h : Heap α)
    (l : SingleLinkedList) (S : List α) (k : Nat) (pos : BasicIterator) (v : α)
    (hS : HasSeq h l S) (hk : k ≤ S.length)
    (hpos : advance h l k SingleLinkedList.before_begin = Outcome.ok pos)
    (hfail : A.pick h = none) :
    InsertAfter A h l pos v = Outcome.bad_alloc (h, l) ∧
      GetSize l = S.length ∧ HasSeq h l S := by
  obtain ⟨cells, hr, rfl⟩ := (hasSeq_iff_rep h l S).1 hS
  rw [List.length_map] at hk
  obtain ⟨q, h1, _⟩ := rep_split hr k
  have hlen : (cells.take k).length = k := by simp [hk]
  have hadv := advance_before_begin l h1
  rw [hlen, hpos] at hadv
  cases hadv
  exact ⟨InsertAfter_bad_alloc A h l _ v (lastPtr_ne_null _) hfail, hS.1, hS⟩

/-- C16 at a concrete state: inserting after the first node of `1, 2` when no
node can be allocated. -/
theorem InsertAfter_alloc_failure_witness :
    HasSeq heap12 list12 [1, 2] ∧
    (InsertAfter (poolAllocator Nat [10, 11]) heap12 list12 ⟨NodePtr.cell 10⟩ 9
        = Outcome.bad_alloc (heap12, list12) ∧
      GetSize list12 = [1, 2].length ∧ HasSeq heap12 list12 [1, 2]) :=
  ⟨by decide,
   InsertAfter_alloc_failure (poolAllocator Nat [10, 11]) heap12 list12 [1, 2] 1
     ⟨NodePtr.cell 10⟩ 9 (by decide) (by decide) rfl (by decide)⟩

theorem EraseAfter_no_successor {α : Type} {h : Heap α} {l : SingleLinkedList}
    {cells : List (Addr × α)} (hr : Rep h l cells) :
    EraseAfter h l ⟨lastPtr cells NodePtr.head⟩ = Outcome.undefined := by
  have hrd := readNext_lastPtr l hr.1
  have hnn := lastPtr_ne_null cells
  unfold EraseAfter
  cases hp : lastPtr cells NodePtr.head with
  | null => exact absurd hp hnn
  | head =>
    rw [hp] at hrd
    simp [hrd]
  | cell a =>
    rw [hp] at hrd
    simp [hrd]

/-- C17: what the code does at positions without a successor.  On the list
`1, 2`, `EraseAfter` at the last node passes `assert(pos.node_)` and then reads
`next_node` through the null successor: undefined behaviour, not a trapped
assertion.  The same holds for `EraseAfter(before_begin())` on an empty list.
Only `PopFront()` on an empty list is stopped by an assertion. -/
theorem EraseAfter_without_successor :
    HasSeq heap12 list12 [1, 2] ∧
    EraseAfter heap12 list12 ⟨NodePtr.cell 11⟩ = Outcome.undefined ∧
    EraseAfter heap12 SingleLinkedList.empty SingleLinkedList.before_begin
      = Outcome.undefined ∧
    PopFront heap12 SingleLinkedList.empty = Outcome.assert_fail ∧
    advance heap12 list12 2 SingleLinkedList.before_begin = Outcome.ok ⟨NodePtr.cell 11⟩ :=
  ⟨by decide, rfl, rfl, rfl, rfl⟩

/-- C18: on a list with element sequence `S`: when `S` is non-empty, `begin()`
and `cbegin()` dereference to the first element and are the position one
increment after `before_begin()`; `begin() == end()` holds exactly when
`IsEmpty()` is true; `end()` and `cend()` are the null iterator, and neither
they nor `begin()`, `cbegin()` are the sentinel position `before_begin()`. -/
theorem begin_end_spec {α : Type} (h : Heap α) (l : SingleLinkedList) (S : List α)
    (hS : HasSeq h l S) :
    (∀ x rest, S = x :: rest →
      l.begin.deref h = Outcome.ok x ∧ l.cbegin.deref h = Outcome.ok x) ∧
    advance h l 1 SingleLinkedList.before_begin = Outcome.ok l.begin ∧
    l.cbegin = l.begin ∧
    (l.begin = SingleLinkedList.end_ ↔ IsEmpty l = true) ∧
    SingleLinkedList.end_ = ⟨NodePtr.null⟩ ∧ SingleLinkedList.cend = ⟨NodePtr.null⟩ ∧
    SingleLinkedList.end_ ≠ SingleLinkedList.before_begin ∧
    SingleLinkedList.cend ≠ SingleLinkedList.before_begin ∧
    l.begin ≠ SingleLinkedList.before_begin ∧ l.cbegin ≠ SingleLinkedList.before_begin := by
  obtain ⟨cells, hr, rfl⟩ := (hasSeq_iff_rep h l S).1 hS
  have hnb : l.begin ≠ SingleLinkedList.before_begin := by
    unfold SingleLinkedList.begin SingleLinkedList.before_begin
    cases l.head_next_node <;> simp [NodePtr.ofLink]
  refine ⟨?_, advance_head h l 0, rfl, ?_, rfl, rfl, by decide, by decide, hnb, hnb⟩
  · intro x rest hx
    cases cells with
    | nil => simp at hx
    | cons c cells =>
      rw [List.map_cons, List.cons.injEq] at hx
      have := deref_begin hr
      rw [hx.1] at this
      exact ⟨this, this⟩
  · have h1 := seg_nil_iff hr.1
    have h2 : IsEmpty l = true ↔ cells = [] := by
      simp [IsEmpty, hr.2]
    rw [h2, ← h1]
    unfold SingleLinkedList.begin SingleLinkedList.end_
    cases l.head_next_node <;> simp [NodePtr.ofLink]

/-- C18 at a concrete state: the list `1, 2`. -/
theorem begin_end_spec_witness :
    HasSeq heap12 list12 [1, 2] ∧
    ((∀ x rest, [1, 2] = x :: rest →
      list12.begin.deref heap12 = Outcome.ok x ∧ list12.cbegin.deref heap12 = Outcome.ok x) ∧
    advance heap12 list12 1 SingleLinkedList.before_begin = Outcome.ok list12.begin ∧
    list12.cbegin = list12.begin ∧
    (list12.begin = SingleLinkedList.end_ ↔ IsEmpty list12 = true) ∧
    SingleLinkedList.end_ = ⟨NodePtr.null⟩ ∧ SingleLinkedList.cend = ⟨NodePtr.null⟩ ∧
    SingleLinkedList.end_ ≠ SingleLinkedList.before_begin ∧
    SingleLinkedList.cend ≠ SingleLinkedList.before_begin ∧
    list12.begin ≠ SingleLinkedList.before_begin ∧
    list12.cbegin ≠ SingleLinkedList.before_begin) :=
  ⟨by decide, begin_end_spec heap12 list12 [1, 2] (by decide)⟩

/-- C19: for a list with element sequence `S`, the self-assignment `L = L`
returns at once with the heap and the list object exactly as they were,
whatever the allocator would do: same size, same element sequence. -/
theorem self_assign_spec {α : Type} (A : Allocator α) (fuel : Nat) (h : Heap α)
    (l : SingleLinkedList) (S : List α) (hS : HasSeq h l S) :
    assign A fuel h l Rhs.self = Outcome.ok (h, l) ∧ GetSize l = S.length ∧ HasSeq h l S :=
  ⟨rfl, hS.1, hS⟩

/-- C19 at a concrete state: `L = L` on the list `1, 2` with an allocator that
cannot allocate. -/
theorem self_assign_spec_witness :
    HasSeq heap12 list12 [1, 2] ∧
    (assign (poolAllocator Nat []) 0 heap12 list12 Rhs.self = Outcome.ok (heap12, list12) ∧
      GetSize list12 = [1, 2].length ∧ HasSeq heap12 list12 [1, 2]) :=
  ⟨by decide, self_assign_spec (poolAllocator Nat []) 0 heap12 list12 [1, 2] (by decide)⟩

/-! ## The invariant of reachable states -/

theorem pushAll_after {α : Type} (A : Allocator α) (xs : List α) {h : Heap α}
    {l : SingleLinkedList} {cells : List (Addr × α)} (hr : Rep h l cells)
    (e : Heap α × SingleLinkedList) (he : (pushAll A h l xs).after = some e) :
    ∃ new, Rep e.1 e.2 (new ++ cells) ∧ (∀ c ∈ new, h c.1 = none) ∧
      (∀ b, h b ≠ none → e.1 b = h b) := by
  induction xs generalizing h l cells with
  | nil =>
    simp only [pushAll, Outcome.after, Option.some.injEq] at he
    subst he
    exact ⟨[], hr, by simp, fun _ _ => rfl⟩
  | cons x rest ih =>
    cases hb : A.pick h with
    | none =>
      simp only [pushAll, PushFront_bad_alloc A h l x hb, Outcome.after,
        Option.some.injEq] at he
      subst he
      exact ⟨[], hr, by simp, fun _ _ => rfl⟩
    | some buff =>
      obtain ⟨h1, l1, hpush, _, hrep, hfr⟩ := PushFront_rep A x hr hb
      have hfree : h buff = none := A.fresh h buff hb
      have hstep : pushAll A h l (x :: rest) = pushAll A h1 l1 rest := by
        simp only [pushAll, hpush]
      rw [hstep] at he
      obtain ⟨new, hrep', hnew, hfr'⟩ := ih hrep he
      have hpres : ∀ b, h b ≠ none → h1 b ≠ none := by
        intro b hb1
        rw [hfr b (fun e1 => hb1 (e1 ▸ hfree))]
        exact hb1
      refine ⟨new ++ [(buff, x)], by simpa using hrep', ?_, ?_⟩
      · intro c hc
        rcases List.mem_append.1 hc with hc | hc
        · have := hnew c hc
          by_cases e1 : c.1 = buff
          · rw [e1]
            exact hfree
          · rw [← hfr c.1 e1]
            exact this
        · simp only [List.mem_singleton] at hc
          subst hc
          exact hfree
      · intro b hb1
        rw [hfr' b (hpres b hb1), hfr b (fun e1 => hb1 (e1 ▸ hfree))]

theorem mutation_rep {α : Type} (A : Allocator α) {h : Heap α} {l : SingleLinkedList}
    {cells : List (Addr × α)} (hr : Rep h l cells) (m : Mutation α)
    (s : Heap α × SingleLinkedList) (hm : (applyMutation A h l m).after = some s) :
    ∃ cells', Rep s.1 s.2 cells' ∧ ∀ x ∈ cells', x ∈ cells ∨ h x.1 = none := by
  cases m with
  | pushFront x =>
    cases hp : A.pick h with
    | none =>
      simp only [applyMutation, PushFront_bad_alloc A h l x hp, Outcome.after,
        Option.some.injEq] at hm
      subst hm
      exact ⟨cells, hr, fun x hx => Or.inl hx⟩
    | some buff =>
      obtain ⟨h', l', hpush, _, hrep, _⟩ := PushFront_rep A x hr hp
      simp only [applyMutation, hpush, Outcome.after, Option.some.injEq] at hm
      subst hm
      refine ⟨_, hrep, ?_⟩
      intro y hy
      rcases List.mem_cons.1 hy with rfl | hy
      · exact Or.inr (A.fresh h buff hp)
      · exact Or.inl hy
  | popFront =>
    cases cells with
    | nil =>
      have : l.head_next_node = none := hr.1
      simp [applyMutation, PopFront, this, Outcome.noexcept, Outcome.after] at hm
    | cons d rest =>
      obtain ⟨h', l', _, hpop, _, hrep, _⟩ := PopFront_rep hr
      simp only [applyMutation, hpop, Outcome.noexcept, Outcome.after, Option.some.injEq] at hm
      subst hm
      exact ⟨rest, hrep, fun x hx => Or.inl (List.mem_cons_of_mem _ hx)⟩
  | insertAfter k x =>
    simp only [applyMutation] at hm
    cases ha : advance h l k SingleLinkedList.before_begin with
    | ok pos =>
      rw [ha] at hm
      simp only at hm
      rcases advance_pos hr k pos ha with ⟨hk, rfl⟩ | rfl
      · cases hp : A.pick h with
        | none =>
          rw [InsertAfter_bad_alloc A h l ⟨lastPtr (cells.take k) NodePtr.head⟩ x
            (lastPtr_ne_null (cells.take k)) hp] at hm
          simp only [Outcome.after, Option.some.injEq] at hm
          subst hm
          exact ⟨cells, hr, fun x hx => Or.inl hx⟩
        | some buff =>
          obtain ⟨q, h1, h2⟩ := rep_split hr k
          have hsz : l.size_ = (cells.take k ++ cells.drop k).length := by
            rw [List.take_append_drop]
            exact hr.2
          obtain ⟨h', l', hins, hrep, _⟩ := InsertAfter_seg A x h1 h2 hsz hp
          rw [hins] at hm
          simp only [Outcome.after, Option.some.injEq] at hm
          subst hm
          refine ⟨_, hrep, ?_⟩
          intro y hy
          rcases List.mem_append.1 hy with hy | hy
          · exact Or.inl (List.mem_of_mem_take hy)
          · rcases List.mem_cons.1 hy with rfl | hy
            · exact Or.inr (A.fresh h buff hp)
            · exact Or.inl (List.mem_of_mem_drop hy)
      · simp [InsertAfter, Outcome.after] at hm
    | bad_alloc e => exact nomatch e
    | assert_fail => simp [ha, Outcome.after] at hm
    | undefined => simp [ha, Outcome.after] at hm
    | out_of_fuel => simp [ha, Outcome.after] at hm
  | eraseAfter k =>
    simp only [applyMutation] at hm
    cases ha : advance h l k SingleLinkedList.before_begin with
    | ok pos =>
      rw [ha] at hm
      simp only at hm
      rcases advance_pos hr k pos ha with ⟨hk, rfl⟩ | rfl
      · by_cases hk2 : k < cells.length
        · obtain ⟨q, h1, h2⟩ := rep_split hr k
          rw [List.drop_eq_getElem_cons hk2] at h2
          have hsz : l.size_ = (cells.take k ++ cells[k] :: cells.drop (k + 1)).length := by
            rw [← List.drop_eq_getElem_cons hk2, List.take_append_drop]
            exact hr.2
          obtain ⟨h', l', nx, hers, hrep, _⟩ := EraseAfter_seg h1 h2 hsz
          rw [hers] at hm
          simp only [Outcome.after, Option.some.injEq] at hm
          subst hm
          refine ⟨_, hrep, ?_⟩
          intro y hy
          rcases List.mem_append.1 hy with hy | hy
          · exact Or.inl (List.mem_of_mem_take hy)
          · exact Or.inl (List.mem_of_mem_drop hy)
        · have hall : cells.take k = cells := List.take_of_length_le (by omega)
          rw [hall, EraseAfter_no_successor hr] at hm
          simp [Outcome.after] at hm
      · simp [EraseAfter, Outcome.after] at hm
    | bad_alloc e => exact nomatch e
    | assert_fail => simp [ha, Outcome.after] at hm
    | undefined => simp [ha, Outcome.after] at hm
    | out_of_fuel => simp [ha, Outcome.after] at hm
  | clear =>
    obtain ⟨h', hcl, _, _⟩ := Clear_rep hr
    simp only [applyMutation, hcl, Outcome.noexcept, Outcome.after, Option.some.injEq] at hm
    subst hm
    exact ⟨[], rep_empty h', by simp⟩

theorem inv_put {α : Type} {w : World α} {c : Nat → List (Addr × α)}
    (hc1 : ∀ i l, w.lists i = some l → Rep w.heap l (c i))
    (hc2 : ∀ i j li lj, i ≠ j → w.lists i = some li → w.lists j = some lj →
      ∀ x ∈ c i, ∀ y ∈ c j, x.1 ≠ y.1)
    (i : Nat) {h' : Heap α} {l' : SingleLinkedList} {cells' : List (Addr × α)}
    (hrep : Rep h' l' cells')
    (hsrc : ∀ x ∈ cells', (w.lists i ≠ none ∧ x ∈ c i) ∨ w.heap x.1 = none)
    (hfr : ∀ b, w.heap b ≠ none → (∀ li, w.lists i = some li → ∀ x ∈ c i, x.1 ≠ b) →
      h' b = w.heap b) :
    WorldInv (w.put h' i l') := by
  have hdis : ∀ k lk, k ≠ i → w.lists k = some lk → ∀ x ∈ cells', ∀ y ∈ c k, x.1 ≠ y.1 := by
    intro k lk hki hk x hx y hy
    rcases hsrc x hx with ⟨hne, hxi⟩ | hfree
    · obtain ⟨li, hli⟩ := Option.ne_none_iff_exists'.1 hne
      exact hc2 i k li lk (Ne.symm hki) hli hk x hxi y hy
    · intro e
      exact seg_alloc (hc1 k lk hk).1 y hy (e ▸ hfree)
  refine ⟨fun k => if k = i then cells' else c k, ?_, ?_⟩
  · intro k lk hk
    simp only [World.put] at hk ⊢
    by_cases hki : k = i
    · simp only [hki, if_true, Option.some.injEq] at hk ⊢
      rw [← hk]
      exact hrep
    · simp only [hki, if_false] at hk ⊢
      refine rep_frame (hc1 k lk hk) ?_
      intro y hy
      apply hfr y.1 (seg_alloc (hc1 k lk hk).1 y hy)
      intro li hli x hx
      exact hc2 i k li lk (Ne.symm hki) hli hk x hx y hy
  · intro a b la lb hab ha hb x hx y hy
    simp only [World.put] at ha hb hx hy
    by_cases hai : a = i
    · have hbi : b ≠ i := fun e => hab (hai.trans e.symm)
      simp only [hai, if_true] at hx
      simp only [hbi, if_false] at hb hy
      exact hdis b lb hbi hb x hx y hy
    · simp only [hai, if_false] at ha hx
      by_cases hbi : b = i
      · simp only [hbi, if_true] at hy
        exact fun e => hdis a la hai ha y hy x hx e.symm
      · simp only [hbi, if_false] at hb hy
        exact hc2 a b la lb hab ha hb x hx y hy

theorem inv_heap {α : Type} {w : World α} (hw : WorldInv w) {h' : Heap α}
    (hfr : ∀ b, w.heap b ≠ none → h' b = w.heap b) : WorldInv ⟨h', w.lists⟩ := by
  obtain ⟨c, hc1, hc2⟩ := hw
  refine ⟨c, ?_, hc2⟩
  intro i l hl
  exact rep_frame (hc1 i l hl) fun y hy => hfr y.1 (seg_alloc (hc1 i l hl).1 y hy)

theorem inv_swap {α : Type} {w : World α} (hw : WorldInv w) {i j : Nat}
    {a b : SingleLinkedList} (hi : w.lists i = some a) (hj : w.lists j = some b) :
    WorldInv ((w.put w.heap i (swap a b).1).put w.heap j (swap a b).2) := by
  obtain ⟨c, hc1, hc2⟩ := hw
  have hsrc : ∀ k lk,
      ((w.put w.heap i (swap a b).1).put w.heap j (swap a b).2).lists k = some lk →
      Rep w.heap lk (c (if k = j then i else if k = i then j else k)) ∧
      ∃ l0, w.lists (if k = j then i else if k = i then j else k) = some l0 := by
    intro k lk hk
    simp only [World.put] at hk
    by_cases hkj : k = j
    · simp only [hkj, if_true, Option.some.injEq] at hk ⊢
      rw [← hk]
      exact ⟨hc1 i a hi, a, hi⟩
    · by_cases hki : k = i
      · subst hki
        simp only [hkj, if_true, if_false, Option.some.injEq] at hk ⊢
        rw [← hk]
        exact ⟨hc1 j b hj, b, hj⟩
      · simp only [hkj, hki, if_false] at hk ⊢
        exact ⟨hc1 k lk hk, lk, hk⟩
  refine ⟨fun k => c (if k = j then i else if k = i then j else k), ?_, ?_⟩
  · intro k lk hk
    exact (hsrc k lk hk).1
  · intro x y lx ly hxy hx hy
    obtain ⟨_, l1, h1⟩ := hsrc x lx hx
    obtain ⟨_, l2, h2⟩ := hsrc y ly hy
    refine hc2 _ _ l1 l2 ?_ h1 h2
    split_ifs <;> omega

theorem step_inv {α : Type} (A : Allocator α) {w w' : World α} (hw : WorldInv w)
    (cmd : Command α) (hstep : w.step A cmd = some w') : WorldInv w' := by
  obtain ⟨c, hc1, hc2⟩ := hw
  cases cmd with
  | construct i =>
    cases hi : w.lists i with
    | some l => simp [World.step, hi] at hstep
    | none =>
      simp only [World.step, hi, Option.some.injEq] at hstep
      rw [← hstep]
      exact inv_put hc1 hc2 i (rep_empty w.heap) (by simp) fun _ _ _ => rfl
  | constructFrom i input =>
    cases hi : w.lists i with
    | some l => simp [World.step, hi] at hstep
    | none =>
      simp only [World.step, hi] at hstep
      cases ho : fromInitializerList A w.heap input with
      | ok r =>
        obtain ⟨h1, l1⟩ := r
        rw [ho] at hstep
        simp only [Option.some.injEq] at hstep
        have ha : (pushAll A w.heap SingleLinkedList.empty input.reverse).after
            = some (h1, l1) := by
          have : pushAll A w.heap SingleLinkedList.empty input.reverse
              = Outcome.ok (h1, l1) := ho
          rw [this]
          rfl
        obtain ⟨new, hrep, hnew, hfr⟩ := pushAll_after A input.reverse (rep_empty w.heap) _ ha
        rw [List.append_nil] at hrep
        rw [← hstep]
        exact inv_put hc1 hc2 i hrep (fun x hx => Or.inr (hnew x hx)) fun b hb _ => hfr b hb
      | bad_alloc r =>
        obtain ⟨h1, l1⟩ := r
        rw [ho] at hstep
        simp only [Option.some.injEq] at hstep
        have ha : (pushAll A w.heap SingleLinkedList.empty input.reverse).after
            = some (h1, l1) := by
          have : pushAll A w.heap SingleLinkedList.empty input.reverse
              = Outcome.bad_alloc (h1, l1) := ho
          rw [this]
          rfl
        obtain ⟨new, _, _, hfr⟩ := pushAll_after A input.reverse (rep_empty w.heap) _ ha
        rw [← hstep]
        exact inv_heap ⟨c, hc1, hc2⟩ hfr
      | assert_fail => simp [ho] at hstep
      | undefined => simp [ho] at hstep
      | out_of_fuel => simp [ho] at hstep
  | constructCopy i j =>
    cases hi : w.lists i with
    | some l => simp [World.step, hi] at hstep
    | none =>
      cases hj : w.lists j with
      | none => simp [World.step, hi, hj] at hstep
      | some r =>
        simp only [World.step, hi, hj] at hstep
        have hr := hc1 j r hj
        have hf : (c j).length ≤ GetSize r := by simp [GetSize, hr.2]
        rcases CopyList_rep A (GetSize r) (rep_empty w.heap) hr (by simp) hf with
          ⟨h1, N, new, hok, hN, _, _, hnew, hfr⟩ | ⟨h1, hbad, _, _, hfr⟩
        · have hok' : copyConstruct A (GetSize r) w.heap r = Outcome.ok (h1, N) := hok
          rw [hok'] at hstep
          simp only [Option.some.injEq] at hstep
          rw [← hstep]
          exact inv_put hc1 hc2 i hN (fun x hx => Or.inr (hnew x hx))
            fun b hb _ => hfr b hb (by simp)
        · have hbad' : copyConstruct A (GetSize r) w.heap r
              = Outcome.bad_alloc (h1, SingleLinkedList.empty) := hbad
          rw [hbad'] at hstep
          simp only [Option.some.injEq] at hstep
          rw [← hstep]
          exact inv_heap ⟨c, hc1, hc2⟩ hfr
  | mutate i m =>
    cases hi : w.lists i with
    | none => simp [World.step, hi] at hstep
    | some l =>
      simp only [World.step, hi] at hstep
      cases ha : (applyMutation A w.heap l m).after with
      | none => simp [ha] at hstep
      | some s =>
        obtain ⟨h1, l1⟩ := s
        rw [ha] at hstep
        simp only [Option.some.injEq] at hstep
        obtain ⟨cells', hrep, hsrc⟩ := mutation_rep A (hc1 i l hi) m _ ha
        have hfr := mutation_frame A (hc1 i l hi) m _ ha
        rw [← hstep]
        refine inv_put hc1 hc2 i hrep ?_ ?_
        · intro x hx
          rcases hsrc x hx with hx1 | hx1
          · exact Or.inl ⟨by simp [hi], hx1⟩
          · exact Or.inr hx1
        · intro b hb hbi
          exact hfr b hb (hbi l hi)
  | swapLists i j =>
    cases hi : w.lists i with
    | none => simp [World.step, hi] at hstep
    | some a =>
      cases hj : w.lists j with
      | none => simp [World.step, hi, hj] at hstep
      | some b =>
        simp only [World.step, hi, hj, Option.some.injEq] at hstep
        rw [← hstep]
        exact inv_swap ⟨c, hc1, hc2⟩ hi hj
  | assignList i j =>
    cases hi : w.lists i with
    | none => simp [World.step, hi] at hstep
    | some t =>
      cases hj : w.lists j with
      | none => simp [World.step, hi, hj] at hstep
      | some r =>
        simp only [World.step, hi, hj] at hstep
        by_cases hij : i = j
        · simp only [hij, if_true, assign, Outcome.after, Option.some.injEq] at hstep
          rw [← hstep, ← hij]
          exact inv_put hc1 hc2 i (hc1 i t hi) (fun x hx => Or.inl ⟨by simp [hi], hx⟩)
            fun _ _ _ => rfl
        · simp only [hij, if_false, assign] at hstep
          have hr := hc1 j r hj
          have hf : (c j).length ≤ GetSize r := by simp [GetSize, hr.2]
          rcases CopyList_rep A (GetSize r) (hc1 i t hi) hr (hc2 i j t r hij hi hj) hf with
            ⟨h1, T1, new, hok, hN, _, _, hnew, hfr⟩ | ⟨h1, hbad, hT, _, hfr⟩
          · rw [hok] at hstep
            simp only [Outcome.after, Option.some.injEq] at hstep
            rw [← hstep]
            exact inv_put hc1 hc2 i hN (fun x hx => Or.inr (hnew x hx))
              fun b hb hbi => hfr b hb (hbi t hi)
          · rw [hbad] at hstep
            simp only [Outcome.after, Option.some.injEq] at hstep
            rw [← hstep]
            exact inv_put hc1 hc2 i hT (fun x hx => Or.inl ⟨by simp [hi], hx⟩)
              fun b hb _ => hfr b hb

theorem run_inv {α : Type} (A : Allocator α) (cmds : List (Command α)) {w w' : World α}
    (hw : WorldInv w) (hrun : World.run A w cmds = some w') : WorldInv w' := by
  induction cmds generalizing w with
  | nil =>
    simp only [World.run, Option.some.injEq] at hrun
    rw [← hrun]
    exact hw
  | cons cmd rest ih =>
    simp only [World.run] at hrun
    cases hs : w.step A cmd with
    | none => simp [hs] at hrun
    | some w1 =>
      rw [hs] at hrun
      exact ih (step_inv A hw cmd hs) hrun

/-- C20: in every state reached from a state without lists by constructions
(default, initializer sequence, copy), `PushFront`, `PopFront`, `InsertAfter`,
`EraseAfter`, `Clear`, `swap` and copy assignment that return (normally or with
`std::bad_alloc`), every list owns a chain `cells` that runs from
`head_.next_node` to `nullptr`, `size_` is the number of its nodes and did not
wrap, no node occurs twice in the chain, and `Clear()` on it returns
normally. -/
theorem reachable_invariant {α : Type} (A : Allocator α) (h0 : Heap α)
    (cmds : List (Command α)) (w : World α)
    (hrun : World.run A (World.start h0) cmds = some w) :
    ∀ i l, w.lists i = some l →
      ∃ cells, Rep w.heap l cells ∧ GetSize l = cells.length ∧ GetSize l < SIZE_MOD ∧
        nodes w.heap l = cells.map Prod.fst ∧ (nodes w.heap l).Nodup ∧
        HasSeq w.heap l (cells.map Prod.snd) ∧
        ∃ h', Clear w.heap l = Outcome.ok (h', SingleLinkedList.empty) := by
  have hstart : WorldInv (World.start h0) :=
    ⟨fun _ => [], fun i l hl => by simp [World.start] at hl,
      fun i j li lj _ hi => by simp [World.start] at hi⟩
  obtain ⟨c, hc1, _⟩ := run_inv A cmds hstart hrun
  intro i l hl
  have hr := hc1 i l hl
  obtain ⟨h', hcl, _⟩ := Clear_rep hr
  refine ⟨c i, hr, hr.2, ?_, nodes_rep hr, ?_, (hasSeq_iff_rep _ _ _).2 ⟨c i, hr, rfl⟩,
    h', hcl⟩
  · rw [GetSize, hr.2]
    exact rep_size_lt hr.1
  · rw [nodes_rep hr]
    exact seg_nodup hr.1

/-- C20 on a concrete run: `sampleProgram` from the heap `heap12` with sixteen
free addresses. -/
theorem reachable_invariant_witness :
    ∃ w, World.run (poolAllocator Nat [60, 61, 62, 63, 64, 65, 66, 67, 68, 69, 70, 71, 72, 73,
        74, 75]) (World.start heap12) sampleProgram = some w ∧
      ∀ i l, w.lists i = some l →
        ∃ cells, Rep w.heap l cells ∧ GetSize l = cells.length ∧ GetSize l < SIZE_MOD ∧
          nodes w.heap l = cells.map Prod.fst ∧ (nodes w.heap l).Nodup ∧
          HasSeq w.heap l (cells.map Prod.snd) ∧
          ∃ h', Clear w.heap l = Outcome.ok (h', SingleLinkedList.empty) :=
  have hs : (World.run (poolAllocator Nat [60, 61, 62, 63, 64, 65, 66, 67, 68, 69, 70, 71, 72,
      73, 74, 75]) (World.start heap12) sampleProgram).isSome = true := by decide
  ⟨Option.get _ hs, (Option.some_get hs).symm,
    reachable_invariant _ heap12 sampleProgram _ (Option.some_get hs).symm⟩

end SLL
